import Mathlib

/- Shallow embedding of the word-substitution engine of `src/browser.py`
   (class `HashMapper`, and `WebContentLoader.encrypt_text_content` /
   `HashMapper.get_encryption_mapping`).

   Modelling conventions:
   * A Python `dict` is modelled as an association list searched front to
     back (`assocFind`); assignment conses a fresh entry at the front, which
     realises assignment-as-overwrite observational semantics.
   * Python exceptions are modelled with `Except PyErr`: the
     `ZeroDivisionError` raised by `% 0` (capacity 0 in `_compute_hash`,
     capacity 1 in `_compute_step`), and the `ValueError` raised by
     `insert` when the table is full.
   * The SHA-256 digest is a parameter `digest : String → Nat` (the value
     `int(hashlib.sha256(word.encode()).hexdigest(), 16)`).  Every claim
     treated here is insensitive to the concrete digest values, so the
     development quantifies over all digest functions, which covers SHA-256;
     concrete counterexamples are digest-independent and are instantiated at
     an explicit digest function.
   * Python's `str.lower`, `str.strip`, `str.upper`, `str.capitalize`,
     `str.isupper`, `str.istitle` and the regex classes `\w`, `\b` are
     modelled on the ASCII fragment (the Python versions are Unicode-aware;
     every claim under study concerns ASCII data). -/

set_option maxHeartbeats 1000000

namespace Browser

/-- Python errors raised by the translated code paths: `ZeroDivisionError`
from `x % 0` or `x // 0`, and the `ValueError("Hash table is full! ...")`
raised by `HashMapper.insert`. -/
inductive PyErr where
  | zeroDivisionError : PyErr
  | valueErrorTableFull : PyErr
  deriving DecidableEq, Repr

/-- ASCII uppercase letter (the cased-uppercase test of Python `str.isupper`
restricted to ASCII). -/
def isAsciiUpper (c : Char) : Bool := 'A' ≤ c && c ≤ 'Z'

/-- ASCII lowercase letter. -/
def isAsciiLower (c : Char) : Bool := 'a' ≤ c && c ≤ 'z'

/-- ASCII alphabetic character: the character class `[a-zA-Z]` of the
tokenising regex `\b[a-zA-Z]+\b`. -/
def isAsciiAlphaCh (c : Char) : Bool := isAsciiLower c || isAsciiUpper c

/-- ASCII digit. -/
def isAsciiDigit (c : Char) : Bool := '0' ≤ c && c ≤ '9'

/-- Word character of the regex class `\w` (ASCII fragment): letters, digits
and underscore.  The regex anchor `\b` holds between a `\w` character and a
non-`\w` character (or a text edge). -/
def isWordChar (c : Char) : Bool := isAsciiAlphaCh c || isAsciiDigit c || c = '_'

/-- Python whitespace stripped by `str.strip()` (ASCII fragment). -/
def isPyWs (c : Char) : Bool :=
  c = ' ' || c = '\t' || c = '\n' || c = '\r' || c = '\x0b' || c = '\x0c'

/-- Python `str.lower` on a single ASCII character. -/
def pyCharLower (c : Char) : Char :=
  if h : isAsciiUpper c then
    ⟨c.val + 32, by
      simp only [isAsciiUpper, Bool.and_eq_true, decide_eq_true_eq] at h
      have h2 : c.val.toNat ≤ 90 := h.2
      have hv : (c.val + 32).toNat = c.val.toNat + 32 := by
        rw [UInt32.toNat_add]
        simp only [show UInt32.size = 4294967296 from rfl,
          show (32 : UInt32).toNat = 32 from rfl]
        omega
      show (c.val + 32).toNat.isValidChar
      rw [hv]
      exact Or.inl (by omega)⟩
  else c

/-- Python `str.upper` on a single ASCII character. -/
def pyCharUpper (c : Char) : Char :=
  if h : isAsciiLower c then
    ⟨c.val - 32, by
      simp only [isAsciiLower, Bool.and_eq_true, decide_eq_true_eq] at h
      have h1 : 97 ≤ c.val.toNat := h.1
      have h2 : c.val.toNat ≤ 122 := h.2
      have hv : (c.val - 32).toNat = c.val.toNat - 32 := by
        rw [UInt32.toNat_sub]
        simp only [show UInt32.size = 4294967296 from rfl,
          show (32 : UInt32).toNat = 32 from rfl]
        omega
      show (c.val - 32).toNat.isValidChar
      rw [hv]
      exact Or.inl (by omega)⟩
  else c

/-- Python `str.lower` (ASCII fragment). -/
def pyLower (s : String) : String := ⟨s.data.map pyCharLower⟩

/-- Python `str.upper` (ASCII fragment). -/
def pyUpper (s : String) : String := ⟨s.data.map pyCharUpper⟩

/-- Both-ends whitespace strip on a character list. -/
def stripChars (l : List Char) : List Char :=
  ((l.dropWhile isPyWs).reverse.dropWhile isPyWs).reverse

/-- Python `str.strip()` (default whitespace, ASCII fragment). -/
def pyStrip (s : String) : String := ⟨stripChars s.data⟩

/-- The normalisation `word.lower().strip()` applied at the top of
`HashMapper.find_encrypted_word`. -/
def pyNorm (s : String) : String := pyStrip (pyLower s)

/-- Front-to-back lookup in an association list: the observational semantics
of Python `dict` membership / indexing, with insertion modelled by consing
at the front. -/
def assocFind {α β : Type} [DecidableEq α] (k : α) : List (α × β) → Option β
  | [] => none
  | e :: es => if e.1 = k then some e.2 else assocFind k es

/-- State of `HashMapper` (`src/browser.py`, lines 15-21): the fixed-size
slot array `table` and the two auxiliary dictionaries. -/
structure HashMapper where
  table_size : Nat
  table : List (Option String)
  word_to_index : List (String × Nat)
  index_to_word : List (Nat × String)
  deriving DecidableEq, Repr

/-- `HashMapper.__init__` (lines 16-21): builds `[None] * table_size` and two
empty dictionaries.  The Python constructor performs no validation of
`table_size`; it is total. -/
def HashMapper.init (table_size : Nat) : HashMapper :=
  { table_size := table_size
    table := List.replicate table_size none
    word_to_index := []
    index_to_word := [] }

/-- The linear-probing search of `HashMapper.insert` (lines 45-49): starting
from probe counter `k`, scan slots `(orig + k) % ts` for the first empty one;
the `fuel` argument counts the remaining allowed probes (`ts` initially), and
exhausting it corresponds to the `probe >= self.table_size` check raising
`ValueError` before any slot is written. -/
def findSlot (tbl : List (Option String)) (ts orig : Nat) : Nat → Nat → Option Nat
  | _, 0 => none
  | k, fuel+1 =>
    let idx := (orig + k) % ts
    if tbl.getD idx none = none then some idx
    else findSlot tbl ts orig (k+1) fuel

/-- `HashMapper.insert` (lines 36-53): no-op when `word` is a key of
`word_to_index`; otherwise linear probing from `digest(word) % table_size`;
stores the word verbatim (no lowercasing, no trimming).  With
`table_size = 0` the modular reduction in `_compute_hash` raises
`ZeroDivisionError`; with a full table the probe loop raises `ValueError`. -/
def HashMapper.insert (digest : String → Nat) (m : HashMapper) (word : String) :
    Except PyErr HashMapper :=
  if (assocFind word m.word_to_index).isSome then .ok m
  else if m.table_size = 0 then .error .zeroDivisionError
  else
    let orig := digest word % m.table_size
    match findSlot m.table m.table_size orig 0 m.table_size with
    | none => .error .valueErrorTableFull
    | some idx =>
      .ok { m with
            table := m.table.set idx (some word)
            word_to_index := (word, idx) :: m.word_to_index
            index_to_word := (idx, word) :: m.index_to_word }

/-- `HashMapper.insert_words` (lines 55-59): insert each non-blank word after
`strip().lower()` normalisation. -/
def HashMapper.insert_words (digest : String → Nat) :
    HashMapper → List String → Except PyErr HashMapper
  | m, [] => .ok m
  | m, w :: ws =>
    if w ≠ "" ∧ pyStrip w ≠ "" then
      match HashMapper.insert digest m (pyLower (pyStrip w)) with
      | .error e => .error e
      | .ok m2 => HashMapper.insert_words digest m2 ws
    else HashMapper.insert_words digest m ws

/-- The probe loop of `HashMapper.find_encrypted_word` (lines 72-84): check
the current index; if its slot holds a word different from the input, return
it; otherwise advance by `step` modulo `ts`, stopping on return to the start
index or after `ts` checks (`fuel` counts the remaining checks, `ts`
initially, mirroring `attempts < self.table_size`). -/
def probeLoop (tbl : List (Option String)) (ts : Nat) (word : String)
    (step start : Nat) : Nat → Nat → Option String
  | _, 0 => none
  | probe, fuel+1 =>
    if (tbl.getD probe none).isSome ∧ tbl.getD probe none ≠ some word then
      tbl.getD probe none
    else if (probe + step) % ts = start then none
    else probeLoop tbl ts word step start ((probe + step) % ts) fuel

/-- `HashMapper.find_encrypted_word` (lines 61-84).  The input is normalised
by `word.lower().strip()`; a word absent from `word_to_index` yields `None`
before any hashing.  For a present word, `_compute_hash` reduces the digest
modulo `table_size` (raising `ZeroDivisionError` at capacity 0) and
`_compute_step` computes `1 + (digest // table_size) % (table_size - 1)`
(raising `ZeroDivisionError` at capacity 1); then the probe walk runs from
`start = (hash_index + step) % table_size`.  The Python locals `word`,
`hash_index`, `step`, `start` are inlined. -/
def HashMapper.find_encrypted_word (digest : String → Nat) (m : HashMapper)
    (w : String) : Except PyErr (Option String) :=
  match assocFind (pyNorm w) m.word_to_index with
  | none => .ok none
  | some _ =>
    if m.table_size = 0 then .error .zeroDivisionError
    else if m.table_size = 1 then .error .zeroDivisionError
    else
      .ok (probeLoop m.table m.table_size (pyNorm w)
        (1 + (digest (pyNorm w) / m.table_size) % (m.table_size - 1))
        ((digest (pyNorm w) % m.table_size +
          (1 + (digest (pyNorm w) / m.table_size) % (m.table_size - 1)))
            % m.table_size)
        ((digest (pyNorm w) % m.table_size +
          (1 + (digest (pyNorm w) / m.table_size) % (m.table_size - 1)))
            % m.table_size)
        m.table_size)

/-- The loop body of `HashMapper.get_encryption_mapping` (lines 86-93),
folded over the de-duplicated word list with the accumulated mapping:
`if encrypted:` keeps only truthy results (skipping `None` and `""`), and
`mapping[word.lower()] = encrypted` conses the entry. -/
def mappingFold (digest : String → Nat) (m : HashMapper) :
    List String → List (String × String) → Except PyErr (List (String × String))
  | [], acc => .ok acc
  | w :: ws, acc =>
    match HashMapper.find_encrypted_word digest m w with
    | .error e => .error e
    | .ok none => mappingFold digest m ws acc
    | .ok (some enc) =>
      if enc = "" then mappingFold digest m ws acc
      else mappingFold digest m ws ((pyLower w, enc) :: acc)

/-- `HashMapper.get_encryption_mapping` (lines 86-93).  Python iterates over
`set(words)`, whose order is unspecified; the model iterates over the
deduplicated word list — every property proved about the result is
insensitive to the iteration order. -/
def HashMapper.get_encryption_mapping (digest : String → Nat) (m : HashMapper)
    (words : List String) : Except PyErr (List (String × String)) :=
  mappingFold digest m words.dedup []

/-- Number of occupied slots (`filled_slots` of `update_statistics`). -/
def HashMapper.occupancy (m : HashMapper) : Nat :=
  m.table.countP (fun s => s.isSome)

/-- Python `str.isupper()` specialised to its only call site: a nonempty run
of ASCII alphabetic characters (every character cased). -/
def runIsUpper (run : List Char) : Bool := run.all isAsciiUpper

/-- Python `str.istitle()` specialised to a nonempty run of ASCII alphabetic
characters: first character uppercase, all following lowercase. -/
def runIsTitle (run : List Char) : Bool :=
  match run with
  | [] => false
  | c :: cs => isAsciiUpper c && cs.all isAsciiLower

/-- Python `str.capitalize()` (ASCII fragment): first character uppercased,
the rest lowercased. -/
def pyCapitalize (s : String) : String :=
  match s.data with
  | [] => s
  | c :: cs => ⟨pyCharUpper c :: cs.map pyCharLower⟩

/-- The case-dispatch of `replace_word` (lines 184-190): all-uppercase run →
`encrypted.upper()`; title-case run → `encrypted.capitalize()`; otherwise the
substitute verbatim. -/
def transferCase (run : List Char) (enc : String) : List Char :=
  if runIsUpper run then enc.data.map pyCharUpper
  else if runIsTitle run then (pyCapitalize enc).data
  else enc.data

/-- `replace_word` (lines 179-191): look up the lowercased matched run in the
mapping; on a hit, emit the substitute through the case dispatch, otherwise
emit the run unchanged. -/
def replaceWord (mapping : List (String × String)) (run : List Char) : List Char :=
  match assocFind (pyLower ⟨run⟩) mapping with
  | none => run
  | some enc => transferCase run enc

/-- The right-hand `\b` test for a run: the character that follows it (the
head of the unconsumed rest) must not be a `\w` character, or the text must
end there. -/
def rightBoundary (rest : List Char) : Bool :=
  match rest.head? with
  | none => true
  | some dch => !isWordChar dch

/-- The word-character state carried past a processed chunk: whether the
last character of `p` (or, for empty `p`, the previous state) is a `\w`
character. -/
def prevAfter (prev : Bool) (p : List Char) : Bool :=
  match p.getLast? with
  | none => prev
  | some c => isWordChar c

/-- The substitution pass of `re.sub(r'\b[a-zA-Z]+\b', replace_word, text)`
(line 194).  A maximal run of ASCII alphabetic characters is a regex match
exactly when the characters adjacent to it on both sides are not `\w`
characters (`\b` fails between two word characters, and backtracking inside
the run cannot produce a boundary either, so a run touching a digit or an
underscore is matched nowhere); matched runs go through `replace_word`, all
other characters pass through verbatim.  `prev` records whether the
preceding character is a `\w` character (`false` at the start of the text);
`fuel` bounds the recursion and is irrelevant once at least the list length
(`goSub_fuel_irrel`). -/
def goSub (mapping : List (String × String)) : Nat → Bool → List Char → List Char
  | 0, _, l => l
  | _+1, _, [] => []
  | fuel+1, prev, c :: cs =>
    if isAsciiAlphaCh c then
      (if !prev && rightBoundary (cs.dropWhile isAsciiAlphaCh)
       then replaceWord mapping (c :: cs.takeWhile isAsciiAlphaCh)
       else c :: cs.takeWhile isAsciiAlphaCh)
        ++ goSub mapping fuel true (cs.dropWhile isAsciiAlphaCh)
    else
      c :: goSub mapping fuel (isWordChar c) cs

/-- `encrypt_text_content` (lines 174-195): empty or whitespace-only text is
returned unchanged; otherwise the regex substitution pass runs over the
text. -/
def encrypt_text_content (mapping : List (String × String)) (text : String) :
    String :=
  if text.data = [] ∨ stripChars text.data = [] then text
  else ⟨goSub mapping text.data.length false text.data⟩

/-- The test applied to a visited slot: an occupied slot whose stored word
differs from the input word is a hit. -/
def slotCheck (tbl : List (Option String)) (word : String) (i : Nat) :
    Option String :=
  match tbl.getD i none with
  | some v => if v = word then none else some v
  | none => none

/-- Modelled from the spec's words for the refinement part of claim C1
(`lookup_substitute`, section 4.2): visit `(start + k·step) mod capacity` for
`k = 0, 1, …`, for at most `capacity` indices, stopping early upon returning
to the starting index; the result is the first occupied slot whose stored
word differs from the input word. -/
def specWalk (tbl : List (Option String)) (ts step start : Nat)
    (word : String) : Option String :=
  let idxs := (List.range ts).map (fun k => (start + k * step) % ts)
  let visited :=
    match idxs with
    | [] => []
    | i0 :: rest => i0 :: rest.takeWhile (fun i => i != start)
  visited.findSome? (slotCheck tbl word)

/-- Index sequence actually visited by `probeLoop`, used to relate it to
`specWalk`. -/
def walkFrom (ts step start : Nat) : Nat → Nat → List Nat
  | _, 0 => []
  | probe, fuel+1 =>
    probe ::
      (if (probe + step) % ts = start then []
       else walkFrom ts step start ((probe + step) % ts) fuel)

/-- A caller-side sequence of `insert` calls: each failing insert leaves the
table as it was (the Python exception is raised before any mutation) and is
recorded with its error. -/
def insertRun (digest : String → Nat) (m : HashMapper) (ws : List String) :
    HashMapper × List (String × PyErr) :=
  ws.foldl
    (fun acc w =>
      match HashMapper.insert digest acc.1 w with
      | .ok m2 => (m2, acc.2)
      | .error e => (acc.1, acc.2 ++ [(w, e)]))
    (m, [])

/-- The table reached from a fresh construction by a sequence of `insert`
calls (failed inserts leave the state unchanged). -/
def insertSeq (digest : String → Nat) (n : Nat) (ws : List String) : HashMapper :=
  (insertRun digest (HashMapper.init n) ws).1

/-- A concrete digest function for closed witnesses and counterexamples; the
facts instantiated at it are digest-independent. -/
def d0 : String → Nat := fun _ => 0

/-- Table-state invariant of claim C5: the slot array has the constructed
length, and the two auxiliary dictionaries agree exactly with the occupied
slots. -/
def TableInv (m : HashMapper) : Prop :=
  m.table.length = m.table_size ∧
  (∀ w i, assocFind w m.word_to_index = some i ↔ m.table.getD i none = some w) ∧
  (∀ i w, assocFind i m.index_to_word = some w ↔ m.table.getD i none = some w)


/-! ### Character-level facts -/

/-- Equality of characters is equality of code points. -/
theorem charEq_iff (a b : Char) : a = b ↔ a.toNat = b.toNat := by
  constructor
  · intro h; rw [h]
  · intro h; exact Char.ext (UInt32.ext h)

/-- Unfolding of `isAsciiUpper` to code-point bounds. -/
theorem isAsciiUpper_iff (c : Char) :
    isAsciiUpper c = true ↔ 65 ≤ c.toNat ∧ c.toNat ≤ 90 := by
  simp only [isAsciiUpper, Bool.and_eq_true, decide_eq_true_eq]
  exact Iff.rfl

/-- Unfolding of `isAsciiLower` to code-point bounds. -/
theorem isAsciiLower_iff (c : Char) :
    isAsciiLower c = true ↔ 97 ≤ c.toNat ∧ c.toNat ≤ 122 := by
  simp only [isAsciiLower, Bool.and_eq_true, decide_eq_true_eq]
  exact Iff.rfl

/-- Unfolding of `isPyWs` to code points. -/
theorem isPyWs_iff (c : Char) : isPyWs c = true ↔
    c.toNat = 32 ∨ c.toNat = 9 ∨ c.toNat = 10 ∨ c.toNat = 13 ∨
    c.toNat = 11 ∨ c.toNat = 12 := by
  simp only [isPyWs, Bool.or_eq_true, decide_eq_true_eq, charEq_iff]
  tauto

/-- Lowercasing an uppercase letter shifts its code point by 32. -/
theorem pyCharLower_toNat_of_upper (c : Char) (h : isAsciiUpper c = true) :
    (pyCharLower c).toNat = c.toNat + 32 := by
  unfold pyCharLower
  rw [dif_pos h]
  show (c.val + 32).toNat = c.val.toNat + 32
  rw [UInt32.toNat_add]
  have h2 : c.val.toNat ≤ 90 := ((isAsciiUpper_iff c).mp h).2
  simp only [show UInt32.size = 4294967296 from rfl,
    show (32 : UInt32).toNat = 32 from rfl]
  omega

/-- Lowercasing fixes every character that is not an uppercase letter. -/
theorem pyCharLower_eq_of_not_upper (c : Char) (h : ¬ isAsciiUpper c = true) :
    pyCharLower c = c := by
  unfold pyCharLower
  rw [dif_neg h]

/-- Lowercasing moves every uppercase letter. -/
theorem pyCharLower_ne_of_upper (c : Char) (h : isAsciiUpper c = true) :
    pyCharLower c ≠ c := by
  intro he
  have hn := (charEq_iff _ _).mp he
  rw [pyCharLower_toNat_of_upper c h] at hn
  omega

/-- Whitespace classification is invariant under lowercasing. -/
theorem isPyWs_pyCharLower (c : Char) : isPyWs (pyCharLower c) = isPyWs c := by
  by_cases h : isAsciiUpper c = true
  · have h1 := (isAsciiUpper_iff c).mp h
    have h2 := pyCharLower_toNat_of_upper c h
    have hws : isPyWs c = false := by
      cases hx : isPyWs c
      · rfl
      · exfalso
        have := (isPyWs_iff c).mp hx
        omega
    have hws2 : isPyWs (pyCharLower c) = false := by
      cases hx : isPyWs (pyCharLower c)
      · rfl
      · exfalso
        have := (isPyWs_iff _).mp hx
        omega
    rw [hws, hws2]
  · rw [pyCharLower_eq_of_not_upper c h]

/-! ### Generic list facts -/

/-- `getD` on a replicated `none` list is `none`. -/
theorem getD_replicate_none (n i : Nat) :
    (List.replicate n (none : Option String)).getD i none = none := by
  induction n generalizing i with
  | zero => simp [List.getD]
  | succ n ih =>
    cases i with
    | zero => simp [List.replicate, List.getD]
    | succ i => simp only [List.replicate, List.getD]; exact ih i

/-- `getD` after `set` at the written index. -/
theorem getD_set_self (l : List (Option String)) (i : Nat) (v : Option String)
    (h : i < l.length) : (l.set i v).getD i none = v := by
  rw [List.getD_eq_getD_get?, List.get?_eq_getElem?, List.getElem?_set_self h]
  rfl

/-- `getD` after `set` away from the written index. -/
theorem getD_set_ne (l : List (Option String)) (i j : Nat) (v : Option String)
    (h : i ≠ j) : (l.set i v).getD j none = l.getD j none := by
  rw [List.getD_eq_getD_get?, List.getD_eq_getD_get?, List.get?_eq_getElem?,
    List.get?_eq_getElem?, List.getElem?_set_ne h]

/-- A `getD` hit is inside the list. -/
theorem lt_length_of_getD_some (l : List (Option String)) (i : Nat) (v : String)
    (h : l.getD i none = some v) : i < l.length := by
  by_contra hge
  rw [List.getD_eq_getD_get?, List.get?_eq_getElem?] at h
  rw [List.getElem?_eq_none (by omega)] at h
  simp at h

/-- A list whose occupied-slot count is below its length has an empty slot. -/
theorem exists_empty_slot (l : List (Option String))
    (h : l.countP (fun s => s.isSome) < l.length) :
    ∃ i, i < l.length ∧ l.getD i none = none := by
  by_contra hall
  push_neg at hall
  have : ∀ a ∈ l, (fun s : Option String => s.isSome) a = true := by
    intro a ha
    obtain ⟨i, hi, hgi⟩ := List.mem_iff_getElem.mp ha
    have hg : l.getD i none = a := by
      rw [List.getD_eq_getD_get?, List.get?_eq_getElem?]
      rw [List.getElem?_eq_getElem hi, hgi]
      rfl
    have := hall i hi
    rw [hg] at this
    cases a with
    | none => exact absurd rfl this
    | some v => rfl
  have := List.countP_eq_length.mpr this
  omega

/-- Filling an empty slot raises the occupied-slot count by one. -/
theorem countP_set_some (l : List (Option String)) (i : Nat) (w : String)
    (hi : i < l.length) (he : l.getD i none = none) :
    (l.set i (some w)).countP (fun s => s.isSome) =
      l.countP (fun s => s.isSome) + 1 := by
  induction l generalizing i with
  | nil => simp at hi
  | cons a as ih =>
    cases i with
    | zero =>
      have : a = none := by simpa [List.getD] using he
      subst this
      simp [List.set, List.countP_cons]
    | succ i =>
      have hi2 : i < as.length := by simpa using hi
      have he2 : as.getD i none = none := by simpa [List.getD] using he
      simp only [List.set, List.countP_cons, ih i hi2 he2]
      omega

/-- The number of occupied slots never exceeds the list length. -/
theorem countP_le_len (l : List (Option String)) :
    l.countP (fun s => s.isSome) ≤ l.length := List.countP_le_length _

/-! ### `findSlot` facts -/

/-- A successful probe returns an empty in-range slot. -/
theorem findSlot_some (tbl : List (Option String)) (ts orig : Nat) (hts : 0 < ts) :
    ∀ fuel k idx, findSlot tbl ts orig k fuel = some idx →
      tbl.getD idx none = none ∧ idx < ts := by
  intro fuel
  induction fuel with
  | zero => intro k idx h; simp [findSlot] at h
  | succ fuel ih =>
    intro k idx h
    rw [findSlot] at h
    by_cases hc : tbl.getD ((orig + k) % ts) none = none
    · rw [if_pos hc] at h
      cases h
      exact ⟨hc, Nat.mod_lt _ hts⟩
    · rw [if_neg hc] at h
      exact ih (k+1) idx h

/-- A failed probe means every visited slot was occupied. -/
theorem findSlot_none (tbl : List (Option String)) (ts orig : Nat) :
    ∀ fuel k, findSlot tbl ts orig k fuel = none →
      ∀ j, j < fuel → tbl.getD ((orig + (k + j)) % ts) none ≠ none := by
  intro fuel
  induction fuel with
  | zero => intro k _ j hj; omega
  | succ fuel ih =>
    intro k h j hj
    rw [findSlot] at h
    by_cases hc : tbl.getD ((orig + k) % ts) none = none
    · rw [if_pos hc] at h; cases h
    · rw [if_neg hc] at h
      cases j with
      | zero => simp only [Nat.add_zero]; exact hc
      | succ j =>
        have := ih (k+1) h j (by omega)
        have harg : orig + (k + 1 + j) = orig + (k + (j + 1)) := by omega
        rwa [harg] at this

/-- Every residue is reached by the linear probe sequence. -/
theorem probe_reaches (ts orig i : Nat) (hts : 0 < ts) (hi : i < ts) :
    ∃ j, j < ts ∧ (orig + j) % ts = i := by
  have ho : orig % ts < ts := Nat.mod_lt _ hts
  refine ⟨(i + ts - orig % ts) % ts, Nat.mod_lt _ hts, ?_⟩
  have h1 : (orig + (i + ts - orig % ts) % ts) % ts
      = (orig + (i + ts - orig % ts)) % ts := Nat.add_mod_mod _ _ _
  rw [h1]
  have hdm := Nat.div_add_mod orig ts
  have hmul : ts * (orig / ts + 1) = ts * (orig / ts) + ts := by ring
  have hx : orig + (i + ts - orig % ts) = ts * (orig / ts + 1) + i := by omega
  rw [hx, Nat.mul_add_mod]
  exact Nat.mod_eq_of_lt hi

/-- If an empty slot exists, the probe of `insert` finds one. -/
theorem findSlot_isSome_of_exists_empty (tbl : List (Option String)) (ts orig : Nat)
    (hts : 0 < ts)
    (hex : ∃ i, i < ts ∧ tbl.getD i none = none) :
    findSlot tbl ts orig 0 ts ≠ none := by
  obtain ⟨i, hi, hempty⟩ := hex
  intro hnone
  obtain ⟨j, hj, hji⟩ := probe_reaches ts orig i hts hi
  have := findSlot_none tbl ts orig ts 0 hnone j hj
  rw [Nat.zero_add, hji] at this
  exact this hempty

/-- On a completely occupied table the probe of `insert` fails. -/
theorem findSlot_none_of_full (tbl : List (Option String)) (ts orig : Nat)
    (hfull : ∀ i, i < ts → tbl.getD i none ≠ none) (hts : 0 < ts) :
    ∀ fuel k, findSlot tbl ts orig k fuel = none := by
  intro fuel
  induction fuel with
  | zero => intro k; rfl
  | succ fuel ih =>
    intro k
    rw [findSlot]
    rw [if_neg (hfull _ (Nat.mod_lt _ hts))]
    exact ih (k+1)

/-! ### `probeLoop` facts -/

/-- Whatever `probeLoop` returns differs from the probed word and is stored
in an occupied slot of the table. -/
theorem probeLoop_some (tbl : List (Option String)) (ts : Nat) (word : String)
    (step start : Nat) :
    ∀ fuel probe v, probeLoop tbl ts word step start probe fuel = some v →
      v ≠ word ∧ ∃ i, tbl.getD i none = some v := by
  intro fuel
  induction fuel with
  | zero => intro probe v h; simp [probeLoop] at h
  | succ fuel ih =>
    intro probe v h
    rw [probeLoop] at h
    by_cases hc : (tbl.getD probe none).isSome ∧ tbl.getD probe none ≠ some word
    · rw [if_pos hc] at h
      obtain ⟨hs, hne⟩ := hc
      cases hg : tbl.getD probe none with
      | none => rw [hg] at hs; simp at hs
      | some u =>
        rw [hg] at h
        cases h
        refine ⟨?_, probe, hg⟩
        intro he
        rw [he] at hg
        exact hne (by rw [hg])
    · rw [if_neg hc] at h
      by_cases hnx : (probe + step) % ts = start
      · rw [if_pos hnx] at h; cases h
      · rw [if_neg hnx] at h
        exact ih _ v h

/-! ### String facts -/

/-- Strings with the same character data are equal. -/
theorem stringEq_of_data (a b : String) (h : a.data = b.data) : a = b := by
  cases a; cases b; simp_all

/-- `dropWhile` keeps the length only by keeping the whole list. -/
theorem dropWhile_eq_self_of_length (p : Char → Bool) (l : List Char)
    (h : (l.dropWhile p).length = l.length) : l.dropWhile p = l :=
  List.IsSuffix.eq_of_length (List.dropWhile_suffix p) h

/-- `stripChars` keeps the length only by keeping the whole list. -/
theorem stripChars_eq_self_of_length (l : List Char)
    (h : (stripChars l).length = l.length) : stripChars l = l := by
  unfold stripChars at *
  have l1 : ((l.dropWhile isPyWs).reverse.dropWhile isPyWs).length
      ≤ (l.dropWhile isPyWs).reverse.length :=
    (List.dropWhile_sublist (p := isPyWs)).length_le
  have l2 : (l.dropWhile isPyWs).length ≤ l.length :=
    (List.dropWhile_sublist (p := isPyWs)).length_le
  rw [List.length_reverse] at h
  rw [List.length_reverse] at l1
  have h1 : (l.dropWhile isPyWs).length = l.length := by omega
  have h2 : ((l.dropWhile isPyWs).reverse.dropWhile isPyWs).length
      = (l.dropWhile isPyWs).reverse.length := by
    rw [List.length_reverse]; omega
  have e1 := dropWhile_eq_self_of_length isPyWs l h1
  have e2 := dropWhile_eq_self_of_length isPyWs (l.dropWhile isPyWs).reverse h2
  rw [e1] at e2 ⊢
  rw [e2, List.reverse_reverse]

/-- A list fixed by `map` is fixed pointwise. -/
theorem map_fix_pointwise (f : Char → Char) :
    ∀ (l : List Char), l.map f = l → ∀ x ∈ l, f x = x := by
  intro l
  induction l with
  | nil => intro _ x hx; cases hx
  | cons a as ih =>
    intro h x hx
    simp at h
    rcases List.mem_cons.mp hx with rfl | hx
    · exact h.1
    · exact ih h.2 x hx

/-- A string containing an uppercase ASCII letter is changed by the
`lower().strip()` normalisation of `find_encrypted_word`. -/
theorem pyNorm_ne_of_has_upper (w : String)
    (h : ∃ c ∈ w.data, isAsciiUpper c = true) : pyNorm w ≠ w := by
  intro he
  obtain ⟨c, hc, hup⟩ := h
  have hdata : stripChars (w.data.map pyCharLower) = w.data := congrArg String.data he
  have hlenmap : (w.data.map pyCharLower).length = w.data.length := List.length_map _ _
  have hlen : (stripChars (w.data.map pyCharLower)).length
      = (w.data.map pyCharLower).length := by rw [hdata, hlenmap]
  have hstrip := stripChars_eq_self_of_length (w.data.map pyCharLower) hlen
  rw [hstrip] at hdata
  have := map_fix_pointwise pyCharLower w.data hdata c hc
  exact pyCharLower_ne_of_upper c hup this

/-! ### `insert` facts -/

/-- Inserting a word already present in `word_to_index` is a strict no-op. -/
theorem insert_ok_of_mem (d : String → Nat) (m : HashMapper) (w : String)
    (h : (assocFind w m.word_to_index).isSome) :
    HashMapper.insert d m w = .ok m := by
  unfold HashMapper.insert
  rw [if_pos h]

/-- Inversion of a successful `insert`: either the word was present and the
state is untouched, or the word was fresh and exactly one empty slot was
written, with both dictionaries extended. -/
theorem insert_inv (d : String → Nat) (m : HashMapper) (w : String)
    (m2 : HashMapper) (hok : HashMapper.insert d m w = .ok m2) :
    (m2 = m ∧ (assocFind w m.word_to_index).isSome = true) ∨
    (assocFind w m.word_to_index = none ∧ 0 < m.table_size ∧ ∃ idx,
      findSlot m.table m.table_size (d w % m.table_size) 0 m.table_size = some idx ∧
      m2 = { table_size := m.table_size
             table := m.table.set idx (some w)
             word_to_index := (w, idx) :: m.word_to_index
             index_to_word := (idx, w) :: m.index_to_word }) := by
  unfold HashMapper.insert at hok
  by_cases h1 : (assocFind w m.word_to_index).isSome
  · rw [if_pos h1] at hok
    cases hok
    exact Or.inl ⟨rfl, h1⟩
  · rw [if_neg h1] at hok
    have h1n : assocFind w m.word_to_index = none := by
      cases hq : assocFind w m.word_to_index
      · rfl
      · rw [hq] at h1; simp at h1
    by_cases h2 : m.table_size = 0
    · rw [if_pos h2] at hok
      cases hok
    · rw [if_neg h2] at hok
      simp only [] at hok
      cases hfs : findSlot m.table m.table_size (d w % m.table_size) 0 m.table_size with
      | none => rw [hfs] at hok; cases hok
      | some idx =>
        rw [hfs] at hok
        cases hok
        exact Or.inr ⟨h1n, Nat.pos_of_ne_zero h2, idx, rfl, rfl⟩

/-- A successful `insert` never rewrites an occupied slot. -/
theorem insert_preserves_occupied (d : String → Nat) (m : HashMapper) (w : String)
    (m2 : HashMapper) (hok : HashMapper.insert d m w = .ok m2) :
    ∀ i v, m.table.getD i none = some v → m2.table.getD i none = some v := by
  intro i v hv
  rcases insert_inv d m w m2 hok with ⟨rfl, _⟩ | ⟨_, hts, idx, hfs, rfl⟩
  · exact hv
  · obtain ⟨hempty, _⟩ := findSlot_some m.table m.table_size _ hts _ _ _ hfs
    have hne : idx ≠ i := by
      intro hq
      rw [hq, hv] at hempty
      cases hempty
    show (m.table.set idx (some w)).getD i none = some v
    rw [getD_set_ne _ _ _ _ hne]
    exact hv

/-- A successful `insert` preserves the capacity field. -/
theorem insert_table_size (d : String → Nat) (m : HashMapper) (w : String)
    (m2 : HashMapper) (hok : HashMapper.insert d m w = .ok m2) :
    m2.table_size = m.table_size := by
  rcases insert_inv d m w m2 hok with ⟨rfl, _⟩ | ⟨_, _, idx, _, rfl⟩ <;> rfl

/-- A successful `insert` preserves the table invariant. -/
theorem tableInv_insert (d : String → Nat) (m : HashMapper) (w : String)
    (m2 : HashMapper) (hInv : TableInv m)
    (hok : HashMapper.insert d m w = .ok m2) : TableInv m2 := by
  obtain ⟨hlen, hwi, hiw⟩ := hInv
  rcases insert_inv d m w m2 hok with ⟨rfl, _⟩ | ⟨hfresh, hts, idx, hfs, rfl⟩
  · exact ⟨hlen, hwi, hiw⟩
  · obtain ⟨hempty, hidx⟩ := findSlot_some m.table m.table_size _ hts _ _ _ hfs
    have hidxlen : idx < m.table.length := by omega
    refine ⟨by simpa using hlen, ?_, ?_⟩
    · intro w2 i
      constructor
      · intro h
        simp only [assocFind] at h
        by_cases he : w = w2
        · rw [if_pos he] at h
          cases h
          rw [getD_set_self _ _ _ hidxlen, he]
        · rw [if_neg he] at h
          have hold := (hwi w2 i).mp h
          have hne : idx ≠ i := by
            intro hq
            rw [hq, hold] at hempty
            cases hempty
          rw [getD_set_ne _ _ _ _ hne]
          exact hold
      · intro h
        simp only [assocFind]
        by_cases hi : idx = i
        · subst hi
          rw [getD_set_self _ _ _ hidxlen] at h
          have he : w = w2 := by injection h
          rw [if_pos he]
        · rw [getD_set_ne _ _ _ _ hi] at h
          have h2 := (hwi w2 i).mpr h
          by_cases he : w = w2
          · subst he
            rw [hfresh] at h2
            cases h2
          · rw [if_neg he]
            exact h2
    · intro i w2
      constructor
      · intro h
        simp only [assocFind] at h
        by_cases he : idx = i
        · rw [if_pos he] at h
          cases h
          rw [← he, getD_set_self _ _ _ hidxlen]
        · rw [if_neg he] at h
          have hold := (hiw i w2).mp h
          rw [getD_set_ne _ _ _ _ he]
          exact hold
      · intro h
        simp only [assocFind]
        by_cases hi : idx = i
        · subst hi
          rw [getD_set_self _ _ _ hidxlen] at h
          have he : w = w2 := by injection h
          rw [if_pos rfl, he]
        · rw [getD_set_ne _ _ _ _ hi] at h
          rw [if_neg hi]
          exact (hiw i w2).mpr h

/-- Dictionary keys after a fresh successful `insert`. -/
theorem insert_assocFind (d : String → Nat) (m : HashMapper) (w : String)
    (m2 : HashMapper) (hfresh : assocFind w m.word_to_index = none)
    (hok : HashMapper.insert d m w = .ok m2) :
    ∀ v, assocFind v m2.word_to_index = none ↔
      (assocFind v m.word_to_index = none ∧ v ≠ w) := by
  intro v
  rcases insert_inv d m w m2 hok with ⟨rfl, hmem⟩ | ⟨_, _, idx, _, rfl⟩
  · rw [hfresh] at hmem
    cases hmem
  · simp only [assocFind]
    by_cases he : w = v
    · subst he
      simp [hfresh]
    · rw [if_neg he]
      have : v ≠ w := fun hq => he hq.symm
      simp [this]

/-- Occupancy after a fresh successful `insert`. -/
theorem insert_occupancy_fresh (d : String → Nat) (m : HashMapper) (w : String)
    (m2 : HashMapper) (hInv : TableInv m)
    (hfresh : assocFind w m.word_to_index = none)
    (hok : HashMapper.insert d m w = .ok m2) :
    m2.occupancy = m.occupancy + 1 := by
  rcases insert_inv d m w m2 hok with ⟨rfl, hmem⟩ | ⟨_, hts, idx, hfs, rfl⟩
  · rw [hfresh] at hmem
    cases hmem
  · obtain ⟨hempty, hidx⟩ := findSlot_some m.table m.table_size _ hts _ _ _ hfs
    have hidxlen : idx < m.table.length := by
      rw [hInv.1]
      exact hidx
    exact countP_set_some m.table idx w hidxlen hempty

/-- When the table has spare capacity, inserting a fresh word succeeds. -/
theorem insert_ok_of_space (d : String → Nat) (m : HashMapper) (w : String)
    (hInv : TableInv m) (hfresh : assocFind w m.word_to_index = none)
    (hts : 0 < m.table_size) (hocc : m.occupancy < m.table_size) :
    ∃ m2, HashMapper.insert d m w = .ok m2 := by
  have hlt : m.table.countP (fun s => s.isSome) < m.table.length := by
    rw [hInv.1]
    exact hocc
  obtain ⟨i, hi, hempty⟩ := exists_empty_slot m.table hlt
  have hex : ∃ i, i < m.table_size ∧ m.table.getD i none = none :=
    ⟨i, by rw [← hInv.1]; exact hi, hempty⟩
  have hfs := findSlot_isSome_of_exists_empty m.table m.table_size
    (d w % m.table_size) hts hex
  unfold HashMapper.insert
  rw [if_neg (by rw [hfresh]; simp), if_neg (Nat.pos_iff_ne_zero.mp hts)]
  simp only []
  cases hq : findSlot m.table m.table_size (d w % m.table_size) 0 m.table_size with
  | none => exact absurd hq hfs
  | some idx => exact ⟨_, rfl⟩

/-- On a completely full table, inserting a fresh word raises `ValueError`. -/
theorem insert_full_error (d : String → Nat) (m : HashMapper) (w : String)
    (hInv : TableInv m) (hfresh : assocFind w m.word_to_index = none)
    (hts : 0 < m.table_size) (hfull : m.occupancy = m.table_size) :
    HashMapper.insert d m w = .error PyErr.valueErrorTableFull := by
  have hcnt : m.table.countP (fun s => s.isSome) = m.table.length := by
    rw [hInv.1]
    exact hfull
  have hall := List.countP_eq_length.mp hcnt
  have hfullslots : ∀ i, i < m.table_size → m.table.getD i none ≠ none := by
    intro i hi hni
    have hilen : i < m.table.length := by rw [hInv.1]; exact hi
    have hmem : m.table.getD i none ∈ m.table := by
      rw [List.getD_eq_getD_get?, List.get?_eq_getElem?, List.getElem?_eq_getElem hilen]
      exact List.getElem_mem hilen
    have := hall _ hmem
    rw [hni] at this
    simp at this
  have hfs := findSlot_none_of_full m.table m.table_size (d w % m.table_size)
    hfullslots hts m.table_size 0
  unfold HashMapper.insert
  rw [if_neg (by rw [hfresh]; simp), if_neg (Nat.pos_iff_ne_zero.mp hts)]
  simp only []
  rw [hfs]

/-! ### `insertRun` facts -/

/-- Unfolding of the `insertRun` fold with a nonempty error accumulator. -/
theorem insertRun_foldl_acc (d : String → Nat) (ws : List String) :
    ∀ (m : HashMapper) (errs : List (String × PyErr)),
      ws.foldl
        (fun acc w =>
          match HashMapper.insert d acc.1 w with
          | .ok m2 => (m2, acc.2)
          | .error e => (acc.1, acc.2 ++ [(w, e)])) (m, errs)
      = ((insertRun d m ws).1, errs ++ (insertRun d m ws).2) := by
  induction ws with
  | nil => intro m errs; simp [insertRun]
  | cons w ws ih =>
    intro m errs
    simp only [insertRun, List.foldl_cons]
    cases h : HashMapper.insert d m w with
    | ok m2 =>
      simp only [h]
      rw [ih m2 errs, ih m2 []]
      simp [insertRun]
    | error e =>
      simp only [h, List.nil_append]
      rw [ih m (errs ++ [(w, e)]), ih m [(w, e)]]
      simp [insertRun]

/-- One step of `insertRun` on success. -/
theorem insertRun_cons_ok (d : String → Nat) (m m2 : HashMapper) (w : String)
    (ws : List String) (hok : HashMapper.insert d m w = .ok m2) :
    insertRun d m (w :: ws) = insertRun d m2 ws := by
  simp only [insertRun, List.foldl_cons, hok]

/-- One step of `insertRun` on failure. -/
theorem insertRun_cons_error (d : String → Nat) (m : HashMapper) (w : String)
    (e : PyErr) (ws : List String) (herr : HashMapper.insert d m w = .error e) :
    insertRun d m (w :: ws) =
      ((insertRun d m ws).1, (w, e) :: (insertRun d m ws).2) := by
  simp only [insertRun, List.foldl_cons, herr, List.nil_append]
  rw [insertRun_foldl_acc d ws m [(w, e)]]
  rfl

/-- The table reached by `insertRun` keeps the invariant (failed inserts
leave the state untouched). -/
theorem tableInv_insertRun (d : String → Nat) (ws : List String) :
    ∀ (m : HashMapper), TableInv m → TableInv (insertRun d m ws).1 := by
  induction ws with
  | nil => intro m h; simpa [insertRun] using h
  | cons w ws ih =>
    intro m h
    cases hq : HashMapper.insert d m w with
    | ok m2 =>
      rw [insertRun_cons_ok d m m2 w ws hq]
      exact ih m2 (tableInv_insert d m w m2 h hq)
    | error e =>
      rw [insertRun_cons_error d m w e ws hq]
      exact ih m h

/-- All-successful `insertRun`: fresh distinct words within spare capacity
all land in empty slots; nothing fails, occupancy grows by the word count,
and the key set grows by exactly the inserted words. -/
theorem insertRun_all_ok (d : String → Nat) (ws : List String) :
    ∀ (m : HashMapper), TableInv m → 0 < m.table_size →
      (∀ w ∈ ws, assocFind w m.word_to_index = none) → ws.Nodup →
      m.occupancy + ws.length ≤ m.table_size →
      ∃ m2, insertRun d m ws = (m2, []) ∧ TableInv m2 ∧
        m2.table_size = m.table_size ∧
        m2.occupancy = m.occupancy + ws.length ∧
        (∀ v, assocFind v m2.word_to_index = none ↔
          (assocFind v m.word_to_index = none ∧ v ∉ ws)) := by
  induction ws with
  | nil =>
    intro m hInv _ _ _ _
    exact ⟨m, by simp [insertRun], hInv, rfl, by simp, by simp⟩
  | cons w ws ih =>
    intro m hInv hts hfresh hnd hocc
    have hf : assocFind w m.word_to_index = none := hfresh w (by simp)
    have hocclt : m.occupancy < m.table_size := by
      simp only [List.length_cons] at hocc
      omega
    obtain ⟨m2, hok⟩ := insert_ok_of_space d m w hInv hf hts hocclt
    have hInv2 := tableInv_insert d m w m2 hInv hok
    have hts2 : m2.table_size = m.table_size := insert_table_size d m w m2 hok
    have hocc2 : m2.occupancy = m.occupancy + 1 :=
      insert_occupancy_fresh d m w m2 hInv hf hok
    have hkeys2 := insert_assocFind d m w m2 hf hok
    have hnd2 : ws.Nodup := (List.nodup_cons.mp hnd).2
    have hwmem : w ∉ ws := (List.nodup_cons.mp hnd).1
    have hfresh2 : ∀ v ∈ ws, assocFind v m2.word_to_index = none := by
      intro v hv
      rw [hkeys2 v]
      exact ⟨hfresh v (by simp [hv]), fun hq => hwmem (hq ▸ hv)⟩
    have hocc2le : m2.occupancy + ws.length ≤ m2.table_size := by
      rw [hocc2, hts2]
      simp only [List.length_cons] at hocc
      omega
    obtain ⟨m3, hrun, hInv3, hts3, hocc3, hkeys3⟩ :=
      ih m2 hInv2 (by rw [hts2]; exact hts) hfresh2 hnd2 hocc2le
    refine ⟨m3, ?_, hInv3, by rw [hts3, hts2], ?_, ?_⟩
    · rw [insertRun_cons_ok d m m2 w ws hok]
      exact hrun
    · rw [hocc3, hocc2]
      simp [Nat.add_assoc, Nat.add_comm 1 _]
    · intro v
      rw [hkeys3 v, hkeys2 v]
      constructor
      · rintro ⟨⟨h1, h2⟩, h3⟩
        exact ⟨h1, by simp [h2, h3]⟩
      · rintro ⟨h1, h2⟩
        simp only [List.mem_cons, not_or] at h2
        exact ⟨⟨h1, h2.1⟩, h2.2⟩

/-- The freshly constructed table satisfies the invariant. -/
theorem tableInv_init (n : Nat) : TableInv (HashMapper.init n) := by
  refine ⟨by simp [HashMapper.init], ?_, ?_⟩
  · intro w i
    simp [HashMapper.init, assocFind, getD_replicate_none]
  · intro i w
    simp [HashMapper.init, assocFind, getD_replicate_none]

/-- The freshly constructed table is empty. -/
theorem occupancy_init (n : Nat) : (HashMapper.init n).occupancy = 0 := by
  simp only [HashMapper.occupancy, HashMapper.init]
  rw [List.countP_eq_zero]
  intro a ha
  rw [List.eq_of_mem_replicate ha]
  simp

/-- Concatenation law for `insertRun`. -/
theorem insertRun_append (d : String → Nat) (m : HashMapper)
    (l1 l2 : List String) :
    insertRun d m (l1 ++ l2) =
      ((insertRun d (insertRun d m l1).1 l2).1,
        (insertRun d m l1).2 ++ (insertRun d (insertRun d m l1).1 l2).2) := by
  show (l1 ++ l2).foldl _ (m, []) = _
  rw [List.foldl_append]
  exact insertRun_foldl_acc d l2 (insertRun d m l1).1 (insertRun d m l1).2

/-! ### Claims C5, C8, C4, C10, C3 -/

/-- Claim C5: after any sequence of `insert` operations starting from a
freshly constructed table, every word appears in at most one slot, the two
auxiliary dictionaries are mutual inverses agreeing exactly with the
occupied slots of the slot array, and a further successful `insert` never
overwrites the content of an occupied slot. -/
theorem claim5_invariants (d : String → Nat) (n : Nat) (ws : List String) :
    (∀ i j w, (insertSeq d n ws).table.getD i none = some w →
        (insertSeq d n ws).table.getD j none = some w → i = j) ∧
    (∀ w i, assocFind w (insertSeq d n ws).word_to_index = some i ↔
        (insertSeq d n ws).table.getD i none = some w) ∧
    (∀ i w, assocFind i (insertSeq d n ws).index_to_word = some w ↔
        (insertSeq d n ws).table.getD i none = some w) ∧
    (∀ w m2, HashMapper.insert d (insertSeq d n ws) w = .ok m2 →
        ∀ i v, (insertSeq d n ws).table.getD i none = some v →
          m2.table.getD i none = some v) := by
  have hInv : TableInv (insertSeq d n ws) :=
    tableInv_insertRun d ws (HashMapper.init n) (tableInv_init n)
  obtain ⟨hlen, hwi, hiw⟩ := hInv
  refine ⟨?_, hwi, hiw, ?_⟩
  · intro i j w hi hj
    have h1 := (hwi w i).mpr hi
    have h2 := (hwi w j).mpr hj
    rw [h1] at h2
    exact Option.some.inj h2
  · intro w m2 hok i v
    exact insert_preserves_occupied d _ w m2 hok i v

/-- Witness for C5 at a concrete table. -/
theorem claim5_invariants_witness :
    (insertSeq d0 3 ["cat"]).table.getD 0 none = some "cat" ∧
    assocFind "cat" (insertSeq d0 3 ["cat"]).word_to_index = some 0 :=
  ⟨by decide, ((claim5_invariants d0 3 ["cat"]).2.1 "cat" 0).mpr (by decide)⟩

/-- Claim C8: inserting a word that is already present is a strict no-op:
the returned state is the very same state, so the slot array, the occupancy
count and every subsequent `find_encrypted_word` result are unchanged. -/
theorem claim8_insert_idempotent (d : String → Nat) (m : HashMapper)
    (w : String) (h : (assocFind w m.word_to_index).isSome) :
    HashMapper.insert d m w = .ok m ∧
    (∀ v, (HashMapper.insert d m w).bind
        (fun m2 => HashMapper.find_encrypted_word d m2 v)
      = HashMapper.find_encrypted_word d m v) ∧
    (HashMapper.insert d m w).map HashMapper.occupancy = .ok m.occupancy ∧
    (HashMapper.insert d m w).map HashMapper.table = .ok m.table := by
  have he := insert_ok_of_mem d m w h
  exact ⟨he, fun v => by rw [he]; rfl, by rw [he]; rfl, by rw [he]; rfl⟩

/-- Witness for C8 at a concrete table. -/
theorem claim8_insert_idempotent_witness :
    (assocFind "cat" (insertSeq d0 2 ["cat"]).word_to_index).isSome = true ∧
    HashMapper.insert d0 (insertSeq d0 2 ["cat"]) "cat" =
      .ok (insertSeq d0 2 ["cat"]) :=
  ⟨by decide,
    (claim8_insert_idempotent d0 (insertSeq d0 2 ["cat"]) "cat" (by decide)).1⟩

/-- Claim C4: inserting `capacity + 1` distinct words into a table of size
`capacity ≥ 1` makes exactly one insertion fail, with the `ValueError`
(TableFull); the failing word is not inserted (absent from `word_to_index`,
and retrying on the unchanged state fails again), and occupancy equals
`capacity` afterwards. -/
theorem claim4_table_full (d : String → Nat) (n : Nat) (ws : List String)
    (hn : 1 ≤ n) (hnd : ws.Nodup) (hlen : ws.length = n + 1) :
    ∃ wl, (insertRun d (HashMapper.init n) ws).2 =
        [(wl, PyErr.valueErrorTableFull)] ∧
      wl ∈ ws ∧
      assocFind wl (insertSeq d n ws).word_to_index = none ∧
      HashMapper.insert d (insertSeq d n ws) wl =
        .error PyErr.valueErrorTableFull ∧
      (insertSeq d n ws).occupancy = n := by
  have hne : ws ≠ [] := by
    intro h
    rw [h] at hlen
    simp at hlen
  have hsplit : ws.dropLast ++ [ws.getLast hne] = ws :=
    List.dropLast_append_getLast hne
  have hlen0 : ws.dropLast.length = n := by
    rw [List.length_dropLast, hlen]
    omega
  have hnd0 : ws.dropLast.Nodup := (List.dropLast_sublist ws).nodup hnd
  have hwlnot : ws.getLast hne ∉ ws.dropLast := by
    rw [← hsplit] at hnd
    simp [List.nodup_append] at hnd
    tauto
  obtain ⟨m2, hrun, hInv2, hts2, hocc2, hkeys2⟩ :=
    insertRun_all_ok d ws.dropLast (HashMapper.init n) (tableInv_init n)
      (by show 0 < n; omega)
      (by intro w _; rfl) hnd0
      (by rw [occupancy_init, hlen0]; show 0 + n ≤ n; omega)
  have hfresh_wl : assocFind (ws.getLast hne) m2.word_to_index = none := by
    rw [hkeys2]
    exact ⟨rfl, hwlnot⟩
  have htsn : m2.table_size = n := hts2
  have hfull : m2.occupancy = m2.table_size := by
    rw [hocc2, htsn, occupancy_init, hlen0]
    omega
  have herr := insert_full_error d m2 (ws.getLast hne) hInv2 hfresh_wl
    (by rw [htsn]; omega) hfull
  have hrunfull : insertRun d (HashMapper.init n) ws =
      (m2, [(ws.getLast hne, PyErr.valueErrorTableFull)]) := by
    conv_lhs => rw [← hsplit]
    rw [insertRun_append, hrun]
    rw [insertRun_cons_error d m2 (ws.getLast hne) PyErr.valueErrorTableFull [] herr]
    simp [insertRun]
  have hseq : insertSeq d n ws = m2 := by
    unfold insertSeq
    rw [hrunfull]
  refine ⟨ws.getLast hne, ?_, List.getLast_mem hne, ?_, ?_, ?_⟩
  · rw [hrunfull]
  · rw [hseq]
    exact hfresh_wl
  · rw [hseq]
    exact herr
  · rw [hseq, hocc2, occupancy_init, hlen0]
    omega

/-- Witness for C4 at capacity 1 with two distinct words. -/
theorem claim4_table_full_witness :
    ((1 : Nat) ≤ 1 ∧ (["a", "b"] : List String).Nodup ∧
      (["a", "b"] : List String).length = 1 + 1) ∧
    ∃ wl, (insertRun d0 (HashMapper.init 1) ["a", "b"]).2 =
        [(wl, PyErr.valueErrorTableFull)] ∧
      wl ∈ (["a", "b"] : List String) ∧
      assocFind wl (insertSeq d0 1 ["a", "b"]).word_to_index = none ∧
      HashMapper.insert d0 (insertSeq d0 1 ["a", "b"]) wl =
        .error PyErr.valueErrorTableFull ∧
      (insertSeq d0 1 ["a", "b"]).occupancy = 1 :=
  ⟨⟨by decide, by decide, by decide⟩,
    claim4_table_full d0 1 ["a", "b"] (by decide) (by decide) (by decide)⟩

/-- Claim C10: `insert` stores its argument verbatim while
`find_encrypted_word` normalises by `lower().strip()` before the membership
test; if a word containing an uppercase letter is inserted while its
normalised form was never inserted, the subsequent lookup of that word
returns `None` even though the word itself occupies a slot.  (The hypothesis
`hlen` records that the slot array has the constructed length, which holds
in every reachable state.) -/
theorem claim10_case_mismatch (d : String → Nat) (m : HashMapper) (w : String)
    (m2 : HashMapper)
    (hlen : m.table.length = m.table_size)
    (hup : ∃ c ∈ w.data, isAsciiUpper c = true)
    (hnorm : assocFind (pyNorm w) m.word_to_index = none)
    (hw : assocFind w m.word_to_index = none)
    (hok : HashMapper.insert d m w = .ok m2) :
    HashMapper.find_encrypted_word d m2 w = .ok none ∧
    ∃ i, m2.table.getD i none = some w := by
  have hnorm_ne := pyNorm_ne_of_has_upper w hup
  rcases insert_inv d m w m2 hok with ⟨rfl, hmem⟩ | ⟨_, hts, idx, hfs, rfl⟩
  · rw [hw] at hmem
    cases hmem
  · obtain ⟨hempty, hidx⟩ := findSlot_some m.table m.table_size _ hts _ _ _ hfs
    have hidxlen : idx < m.table.length := by omega
    constructor
    · have hmiss : assocFind (pyNorm w)
          ((w, idx) :: m.word_to_index) = none := by
        simp only [assocFind]
        rw [if_neg (fun hq => hnorm_ne hq.symm)]
        exact hnorm
      unfold HashMapper.find_encrypted_word
      simp only [hmiss]
    · exact ⟨idx, by rw [getD_set_self _ _ _ hidxlen]⟩

/-- Witness for C10: insert `"CAT"` verbatim into a fresh table of
capacity 4; its lookup returns `None` although `"CAT"` occupies slot 0. -/
theorem claim10_case_mismatch_witness :
    HashMapper.insert d0 (HashMapper.init 4) "CAT" =
      .ok { table_size := 4
            table := [some "CAT", none, none, none]
            word_to_index := [("CAT", 0)]
            index_to_word := [(0, "CAT")] } ∧
    (HashMapper.find_encrypted_word d0
        { table_size := 4
          table := [some "CAT", none, none, none]
          word_to_index := [("CAT", 0)]
          index_to_word := [(0, "CAT")] } "CAT" = .ok none ∧
      ∃ i, ({ table_size := 4
              table := [some "CAT", none, none, none]
              word_to_index := [("CAT", 0)]
              index_to_word := [(0, "CAT")] } : HashMapper).table.getD i none
          = some "CAT") :=
  ⟨rfl,
    claim10_case_mismatch d0 (HashMapper.init 4) "CAT" _
      (by decide) (by decide) (by decide) (by decide) rfl⟩

/-- Claim C3 counterexample: `HashMapper.__init__` performs no validation;
constructing with capacity 0 does not fail — it produces a table with an
empty slot array and empty dictionaries (refuting "fails with an
InvalidConfiguration error").  The failure surfaces only later: an `insert`
on that table raises `ZeroDivisionError` from `digest % 0`. -/
theorem claim3_counterexample :
    HashMapper.init 0 =
      { table_size := 0, table := [], word_to_index := [], index_to_word := [] } ∧
    HashMapper.insert d0 (HashMapper.init 0) "cat" =
      .error PyErr.zeroDivisionError := by
  constructor
  · rfl
  · rfl

/-- Claim C3 amended: construction with any capacity (including 0) succeeds
unconditionally, producing the slot array `[None] * capacity` and empty
dictionaries; no InvalidConfiguration error exists in the code.  At
capacity 0 every subsequent insert raises `ZeroDivisionError`. -/
theorem claim3_amended (d : String → Nat) (n : Nat) :
    HashMapper.init n =
      { table_size := n, table := List.replicate n none,
        word_to_index := [], index_to_word := [] } ∧
    (n = 0 → ∀ w, HashMapper.insert d (HashMapper.init n) w =
        .error PyErr.zeroDivisionError) := by
  refine ⟨rfl, ?_⟩
  rintro rfl w
  unfold HashMapper.insert
  rw [if_neg (by simp [HashMapper.init, assocFind]),
    if_pos (show (HashMapper.init 0).table_size = 0 from rfl)]

/-- Witness for the amended C3. -/
theorem claim3_amended_witness :
    (0 : Nat) = 0 ∧
    HashMapper.insert d0 (HashMapper.init 0) "x" =
      .error PyErr.zeroDivisionError :=
  ⟨rfl, (claim3_amended d0 0).2 rfl "x"⟩

/-! ### Claim C2 -/

/-- Claim C2 counterexample: at capacity 1, looking up a word that HAS been
inserted does not return `None` — it raises `ZeroDivisionError`, because
`_compute_step` reduces modulo `table_size - 1 = 0`.  (The walk of the hash
is irrelevant: the failure happens for every digest value; instantiated at
`d0`.) -/
theorem claim2_counterexample :
    (HashMapper.insert d0 (HashMapper.init 1) "cat").bind
      (fun m => HashMapper.find_encrypted_word d0 m "cat")
      = .error PyErr.zeroDivisionError := rfl

/-- Claim C2 amended: at capacity 1, `find_encrypted_word` returns `None`
for every word whose normalised form is not in `word_to_index` (the
membership test precedes any hashing), but for a present word it fails with
`ZeroDivisionError` from `step = 1 + (digest // capacity) % (capacity - 1)`. -/
theorem claim2_capacity_one (d : String → Nat) (m : HashMapper) (w : String)
    (h1 : m.table_size = 1) :
    HashMapper.find_encrypted_word d m w =
      (if (assocFind (pyNorm w) m.word_to_index).isSome
       then .error PyErr.zeroDivisionError
       else .ok none) := by
  unfold HashMapper.find_encrypted_word
  cases hf : assocFind (pyNorm w) m.word_to_index with
  | none => simp [hf]
  | some j => simp [hf, h1]

/-- Witness for the amended C2 at a concrete capacity-1 table. -/
theorem claim2_capacity_one_witness :
    (insertSeq d0 1 ["cat"]).table_size = 1 ∧
    HashMapper.find_encrypted_word d0 (insertSeq d0 1 ["cat"]) "cat" =
      (if (assocFind (pyNorm "cat") (insertSeq d0 1 ["cat"]).word_to_index).isSome
       then .error PyErr.zeroDivisionError
       else .ok none) :=
  ⟨by decide, claim2_capacity_one d0 (insertSeq d0 1 ["cat"]) "cat" (by decide)⟩

/-! ### Claim C1: the probe loop refines the spec walk -/

/-- `probeLoop` is the first-hit search along its visited index sequence. -/
theorem probeLoop_eq_walkFrom (tbl : List (Option String)) (ts : Nat)
    (word : String) (step start : Nat) :
    ∀ fuel probe, probeLoop tbl ts word step start probe fuel =
      (walkFrom ts step start probe fuel).findSome? (slotCheck tbl word) := by
  intro fuel
  induction fuel with
  | zero => intro probe; rfl
  | succ fuel ih =>
    intro probe
    rw [probeLoop, walkFrom]
    by_cases hc : (tbl.getD probe none).isSome ∧ tbl.getD probe none ≠ some word
    · rw [if_pos hc]
      obtain ⟨hs, hne⟩ := hc
      cases hg : tbl.getD probe none with
      | none => rw [hg] at hs; cases hs
      | some v =>
        have hvne : v ≠ word := by
          intro h
          rw [hg, h] at hne
          exact hne rfl
        have hcheck : slotCheck tbl word probe = some v := by
          unfold slotCheck
          rw [hg]
          exact if_neg hvne
        rw [List.findSome?_cons, hcheck]
    · rw [if_neg hc]
      have hcheck : slotCheck tbl word probe = none := by
        unfold slotCheck
        cases hg : tbl.getD probe none with
        | none => rfl
        | some v =>
          rw [hg] at hc
          simp only [Option.isSome_some, true_and, ne_eq, not_not,
            Option.some.injEq] at hc
          show (if v = word then (none : Option String) else some v) = none
          exact if_pos hc
      rw [List.findSome?_cons, hcheck]
      show _ = List.findSome? (slotCheck tbl word)
        (if (probe + step) % ts = start then []
         else walkFrom ts step start ((probe + step) % ts) fuel)
      by_cases hnxt : (probe + step) % ts = start
      · rw [if_pos hnxt, if_pos hnxt]
        rfl
      · rw [if_neg hnxt, if_neg hnxt, ih]

/-- The visited index sequence of `probeLoop`, written arithmetically:
`probe, probe + step, probe + 2·step, …` modulo `ts`, truncated at the first
return to `start` and to at most `fuel + 1` indices. -/
theorem walkFrom_eq_range (ts step start : Nat) :
    ∀ fuel probe, walkFrom ts step start probe (fuel + 1) =
      probe :: (((List.range fuel).map
        (fun j => (probe + (j + 1) * step) % ts)).takeWhile
          (fun i => i != start)) := by
  intro fuel
  induction fuel with
  | zero =>
    intro probe
    rw [walkFrom]
    simp only [List.range_zero, List.map_nil, List.takeWhile_nil]
    by_cases h : (probe + step) % ts = start
    · rw [if_pos h]
    · rw [if_neg h]
      rfl
  | succ fuel ih =>
    intro probe
    rw [walkFrom]
    rw [List.range_succ_eq_map]
    simp only [List.map_cons, List.map_map]
    have hhead : (probe + (0 + 1) * step) % ts = (probe + step) % ts := by
      norm_num
    rw [List.takeWhile_cons, hhead]
    by_cases h : (probe + step) % ts = start
    · rw [if_pos h]
      simp [h]
    · rw [if_neg h, ih ((probe + step) % ts)]
      have hcond : (((probe + step) % ts != start) = true) := by
        simpa using h
      rw [if_pos hcond]
      have hm : (List.range fuel).map
            (fun j => ((probe + step) % ts + (j + 1) * step) % ts)
          = (List.range fuel).map
            ((fun j => (probe + (j + 1) * step) % ts) ∘ Nat.succ) := by
        apply List.map_congr_left
        intro j _
        simp only [Function.comp_apply]
        rw [Nat.mod_add_mod]
        congr 1
        simp only [Nat.succ_eq_add_one]
        ring
      rw [hm]

/-- The spec-level walk coincides with the translated probe loop. -/
theorem specWalk_eq_probeLoop (tbl : List (Option String)) (ts step start : Nat)
    (word : String) (hts : 0 < ts) (hstart : start < ts) :
    specWalk tbl ts step start word =
      probeLoop tbl ts word step start start ts := by
  obtain ⟨fuel, rfl⟩ : ∃ f, ts = f + 1 := ⟨ts - 1, by omega⟩
  unfold specWalk
  rw [probeLoop_eq_walkFrom, walkFrom_eq_range]
  rw [List.range_succ_eq_map]
  simp only [List.map_cons, List.map_map]
  have hhead : (start + 0 * step) % (fuel + 1) = start := by
    simpa using Nat.mod_eq_of_lt hstart
  rw [hhead]
  have hm : (List.range fuel).map
        ((fun k => (start + k * step) % (fuel + 1)) ∘ Nat.succ)
      = (List.range fuel).map
        (fun j => (start + (j + 1) * step) % (fuel + 1)) := by
    apply List.map_congr_left
    intro j _
    simp only [Function.comp_apply, Nat.succ_eq_add_one]
  rw [hm]

/-- Claim C1 counterexample: after `insert("CAT")` and `insert("cat")` into
a capacity-2 table, `find_encrypted_word("CAT")` normalises its argument to
`"cat"` and returns the stored word `"CAT"` — equal to the input word — so
the result is neither `None` nor distinct from the input.  The loop only
rules out slots storing the *normalised* word.  (The layout is
digest-independent at capacity 2: the step is always 1 and both slots are
visited; instantiated at `d0`.) -/
theorem claim1_counterexample :
    ((HashMapper.insert d0 (HashMapper.init 2) "CAT").bind
      (fun m => HashMapper.insert d0 m "cat")).bind
      (fun m => HashMapper.find_encrypted_word d0 m "CAT")
      = .ok (some "CAT") := rfl

/-- Claim C1 amended: whenever `find_encrypted_word` returns without raising,
the result is `None` or a word that differs from the *normalised* input
`w.lower().strip()` and is stored in an occupied slot; and when the
normalised word is present, the result is exactly the spec walk that starts
at `(primary_index + step) mod capacity` and advances by `step`, for at most
`capacity` indices or until returning to the start. -/
theorem claim1_lookup (d : String → Nat) (m : HashMapper) (w : String)
    (r : Option String)
    (hr : HashMapper.find_encrypted_word d m w = .ok r) :
    (∀ v, r = some v → v ≠ pyNorm w ∧ ∃ i, m.table.getD i none = some v) ∧
    ((assocFind (pyNorm w) m.word_to_index).isSome →
      2 ≤ m.table_size ∧
      r = specWalk m.table m.table_size
        (1 + (d (pyNorm w) / m.table_size) % (m.table_size - 1))
        ((d (pyNorm w) % m.table_size +
          (1 + (d (pyNorm w) / m.table_size) % (m.table_size - 1)))
            % m.table_size)
        (pyNorm w)) := by
  unfold HashMapper.find_encrypted_word at hr
  cases hf : assocFind (pyNorm w) m.word_to_index with
  | none =>
    rw [hf] at hr
    simp only [] at hr
    have hrn : r = none := by
      cases hr
      rfl
    subst hrn
    constructor
    · intro v hv
      cases hv
    · intro hmem
      simp at hmem
  | some j =>
    rw [hf] at hr
    simp only [] at hr
    by_cases h0 : m.table_size = 0
    · rw [if_pos h0] at hr
      cases hr
    · rw [if_neg h0] at hr
      by_cases h1 : m.table_size = 1
      · rw [if_pos h1] at hr
        cases hr
      · rw [if_neg h1] at hr
        have hr2 : probeLoop m.table m.table_size (pyNorm w)
            (1 + (d (pyNorm w) / m.table_size) % (m.table_size - 1))
            ((d (pyNorm w) % m.table_size +
              (1 + (d (pyNorm w) / m.table_size) % (m.table_size - 1)))
                % m.table_size)
            ((d (pyNorm w) % m.table_size +
              (1 + (d (pyNorm w) / m.table_size) % (m.table_size - 1)))
                % m.table_size)
            m.table_size = r := by
          cases hr
          rfl
        constructor
        · intro v hv
          rw [hv] at hr2
          exact probeLoop_some m.table m.table_size (pyNorm w) _ _ _ _ v hr2
        · intro _
          have hts : 0 < m.table_size := Nat.pos_of_ne_zero h0
          refine ⟨by omega, ?_⟩
          rw [← hr2, specWalk_eq_probeLoop _ _ _ _ _ hts (Nat.mod_lt _ hts)]

/-- Witness for the amended C1 at a concrete capacity-4 table holding
`"cat"` and `"dog"`. -/
theorem claim1_lookup_witness :
    HashMapper.find_encrypted_word d0 (insertSeq d0 4 ["cat", "dog"]) "dog" =
      .ok (some "cat") ∧
    ("cat" ≠ pyNorm "dog" ∧
      ∃ i, (insertSeq d0 4 ["cat", "dog"]).table.getD i none = some "cat") :=
  ⟨rfl,
    (claim1_lookup d0 (insertSeq d0 4 ["cat", "dog"]) "dog" (some "cat")
      rfl).1 "cat" rfl⟩

/-! ### Claim C9: the batch mapping -/

/-- A non-`None` lookup result differs from the normalised input word and is
stored in some occupied slot. -/
theorem find_some_facts (d : String → Nat) (m : HashMapper) (w v : String)
    (h : HashMapper.find_encrypted_word d m w = .ok (some v)) :
    v ≠ pyNorm w ∧ ∃ i, m.table.getD i none = some v := by
  unfold HashMapper.find_encrypted_word at h
  cases hf : assocFind (pyNorm w) m.word_to_index with
  | none =>
    rw [hf] at h
    simp at h
  | some j =>
    rw [hf] at h
    by_cases h0 : m.table_size = 0
    · rw [if_pos h0] at h
      simp at h
    · rw [if_neg h0] at h
      by_cases h1 : m.table_size = 1
      · rw [if_pos h1] at h
        simp at h
      · rw [if_neg h1] at h
        simp only [Except.ok.injEq] at h
        exact probeLoop_some m.table m.table_size (pyNorm w) _ _ _ _ v h

/-- `find_encrypted_word` depends on its argument only through the
normalisation `lower().strip()`. -/
theorem find_congr (d : String → Nat) (m : HashMapper) (w1 w2 : String)
    (h : pyNorm w1 = pyNorm w2) :
    HashMapper.find_encrypted_word d m w1 =
      HashMapper.find_encrypted_word d m w2 := by
  unfold HashMapper.find_encrypted_word
  rw [h]

/-- Stripping commutes with lowercasing (lowercasing fixes whitespace). -/
theorem stripChars_map_lower (l : List Char) :
    stripChars (l.map pyCharLower) = (stripChars l).map pyCharLower := by
  unfold stripChars
  have hpred : (isPyWs ∘ pyCharLower) = isPyWs := funext isPyWs_pyCharLower
  rw [List.dropWhile_map, hpred]
  rw [← List.map_reverse, List.dropWhile_map, hpred, ← List.map_reverse]

/-- For a word already free of surrounding whitespace, the normalisation of
`find_encrypted_word` is plain lowercasing. -/
theorem pyNorm_eq_lower (w : String) (h : pyStrip w = w) :
    pyNorm w = pyLower w := by
  have hd : stripChars w.data = w.data := congrArg String.data h
  apply stringEq_of_data
  show stripChars (w.data.map pyCharLower) = w.data.map pyCharLower
  rw [stripChars_map_lower, hd]

/-- Provenance of the entries built by the `get_encryption_mapping` loop:
every entry of the result is an accumulator entry or comes from a word of
the list, keyed by its lowercase form with a truthy lookup result. -/
theorem mappingFold_mem (d : String → Nat) (m : HashMapper) :
    ∀ (l : List String) (acc mp : List (String × String)),
      mappingFold d m l acc = .ok mp →
      ∀ k v, (k, v) ∈ mp →
        (k, v) ∈ acc ∨ ∃ w, w ∈ l ∧ k = pyLower w ∧
          HashMapper.find_encrypted_word d m w = .ok (some v) := by
  intro l
  induction l with
  | nil =>
    intro acc mp h k v hm
    rw [mappingFold] at h
    cases h
    exact Or.inl hm
  | cons w ws ih =>
    intro acc mp h k v hm
    rw [mappingFold] at h
    cases hf : HashMapper.find_encrypted_word d m w with
    | error e =>
      rw [hf] at h
      cases h
    | ok r =>
      rw [hf] at h
      cases r with
      | none =>
        rcases ih acc mp h k v hm with h1 | ⟨w2, hw2, hk, hfind⟩
        · exact Or.inl h1
        · exact Or.inr ⟨w2, List.mem_cons_of_mem w hw2, hk, hfind⟩
      | some enc =>
        simp only [] at h
        by_cases he : enc = ""
        · rw [if_pos he] at h
          rcases ih acc mp h k v hm with h1 | ⟨w2, hw2, hk, hfind⟩
          · exact Or.inl h1
          · exact Or.inr ⟨w2, List.mem_cons_of_mem w hw2, hk, hfind⟩
        · rw [if_neg he] at h
          rcases ih _ mp h k v hm with h1 | ⟨w2, hw2, hk, hfind⟩
          · rcases List.mem_cons.mp h1 with hhd | htl
            · have hk : k = pyLower w := congrArg Prod.fst hhd
              have hv : v = enc := congrArg Prod.snd hhd
              exact Or.inr ⟨w, List.mem_cons_self w ws, hk, by rw [hv]; exact hf⟩
            · exact Or.inl htl
          · exact Or.inr ⟨w2, List.mem_cons_of_mem w hw2, hk, hfind⟩

/-- Claim C9 counterexample: with `"cat"` and the un-stripped string
`"cat "` both inserted into a capacity-2 table, `get_encryption_mapping`
on `["cat "]` returns the map `{"cat ": "cat "}`, whose single key equals
its own value: the key is `word.lower()` (no strip), while the distinctness
test of the walk compares against `word.lower().strip()`.  The layout is
digest-independent at capacity 2; instantiated at `d0`. -/
theorem claim9_counterexample :
    ((HashMapper.insert d0 (HashMapper.init 2) "cat").bind
      (fun m => HashMapper.insert d0 m "cat ")).bind
      (fun m => HashMapper.get_encryption_mapping d0 m ["cat "])
      = .ok [("cat ", "cat ")] := rfl

/-- Claim C9 amended: for input words that carry no surrounding whitespace
(`strip(w) = w` — in particular all words produced by the tokenising regex),
a returned map never contains an entry whose key equals its own value, and a
word whose lookup returns `None` contributes no entry. -/
theorem claim9_mapping (d : String → Nat) (m : HashMapper)
    (words : List String) (mp : List (String × String))
    (htrim : ∀ w ∈ words, pyStrip w = w)
    (hok : HashMapper.get_encryption_mapping d m words = .ok mp) :
    (∀ k v, (k, v) ∈ mp → k ≠ v) ∧
    (∀ w ∈ words, HashMapper.find_encrypted_word d m w = .ok none →
      ∀ v, (pyLower w, v) ∉ mp) := by
  unfold HashMapper.get_encryption_mapping at hok
  constructor
  · intro k v hm
    rcases mappingFold_mem d m words.dedup [] mp hok k v hm with h1 | ⟨w2, hw2, hk, hfind⟩
    · cases h1
    · have htr2 : pyStrip w2 = w2 := htrim w2 (List.mem_dedup.mp hw2)
      have hne := (find_some_facts d m w2 v hfind).1
      rw [pyNorm_eq_lower w2 htr2] at hne
      rw [hk]
      intro hq
      exact hne hq.symm
  · intro w hw hnone v hmem
    rcases mappingFold_mem d m words.dedup [] mp hok (pyLower w) v hmem with
      h1 | ⟨w2, hw2, hk, hfind⟩
    · cases h1
    · have htr2 : pyStrip w2 = w2 := htrim w2 (List.mem_dedup.mp hw2)
      have htr1 : pyStrip w = w := htrim w hw
      have hnorm : pyNorm w = pyNorm w2 := by
        rw [pyNorm_eq_lower w htr1, pyNorm_eq_lower w2 htr2, hk]
      rw [find_congr d m w w2 hnorm, hfind] at hnone
      cases hnone

/-- Witness for the amended C9 at a concrete table. -/
theorem claim9_mapping_witness :
    ((∀ w ∈ (["dog"] : List String), pyStrip w = w) ∧
      HashMapper.get_encryption_mapping d0 (insertSeq d0 4 ["cat", "dog"])
        ["dog"] = .ok [("dog", "cat")]) ∧
    "dog" ≠ "cat" :=
  ⟨⟨by decide, rfl⟩,
    (claim9_mapping d0 (insertSeq d0 4 ["cat", "dog"]) ["dog"]
      [("dog", "cat")] (by decide) rfl).1 "dog" "cat" (by decide)⟩

/-! ### Text transformer: list infrastructure -/

/-- `takeWhile` over an append stops inside the first part if that part has
a failing element. -/
theorem takeWhile_append_stop (p : Char → Bool) :
    ∀ (l1 l2 : List Char), (∃ x ∈ l1, p x = false) →
      (l1 ++ l2).takeWhile p = l1.takeWhile p := by
  intro l1
  induction l1 with
  | nil => intro l2 h; simp at h
  | cons a l ih =>
    intro l2 h
    by_cases ha : p a
    · rw [List.cons_append, List.takeWhile_cons, List.takeWhile_cons,
        if_pos ha, if_pos ha]
      congr 1
      apply ih
      rcases h with ⟨x, hx, hpx⟩
      rcases List.mem_cons.mp hx with rfl | hx
      · rw [ha] at hpx; cases hpx
      · exact ⟨x, hx, hpx⟩
    · rw [List.cons_append, List.takeWhile_cons, List.takeWhile_cons,
        if_neg ha, if_neg ha]

/-- `dropWhile` over an append stops inside the first part if that part has
a failing element. -/
theorem dropWhile_append_stop (p : Char → Bool) :
    ∀ (l1 l2 : List Char), (∃ x ∈ l1, p x = false) →
      (l1 ++ l2).dropWhile p = l1.dropWhile p ++ l2 := by
  intro l1
  induction l1 with
  | nil => intro l2 h; simp at h
  | cons a l ih =>
    intro l2 h
    by_cases ha : p a
    · rw [List.cons_append, List.dropWhile_cons, List.dropWhile_cons,
        if_pos ha, if_pos ha]
      apply ih
      rcases h with ⟨x, hx, hpx⟩
      rcases List.mem_cons.mp hx with rfl | hx
      · rw [ha] at hpx; cases hpx
      · exact ⟨x, hx, hpx⟩
    · rw [List.cons_append, List.dropWhile_cons, List.dropWhile_cons,
        if_neg ha, if_neg ha, List.cons_append]

/-- `takeWhile` passes over a first part all of whose elements succeed. -/
theorem takeWhile_append_all (p : Char → Bool) :
    ∀ (l1 l2 : List Char), (∀ x ∈ l1, p x = true) →
      (l1 ++ l2).takeWhile p = l1 ++ l2.takeWhile p := by
  intro l1
  induction l1 with
  | nil => intro l2 _; rfl
  | cons a l ih =>
    intro l2 h
    rw [List.cons_append, List.takeWhile_cons, if_pos (h a (by simp)),
      List.cons_append]
    congr 1
    exact ih l2 (fun x hx => h x (by simp [hx]))

/-- `dropWhile` passes over a first part all of whose elements succeed. -/
theorem dropWhile_append_all (p : Char → Bool) :
    ∀ (l1 l2 : List Char), (∀ x ∈ l1, p x = true) →
      (l1 ++ l2).dropWhile p = l2.dropWhile p := by
  intro l1
  induction l1 with
  | nil => intro l2 _; rfl
  | cons a l ih =>
    intro l2 h
    rw [List.cons_append, List.dropWhile_cons, if_pos (h a (by simp))]
    exact ih l2 (fun x hx => h x (by simp [hx]))

/-- `takeWhile` of a list whose head fails (or which is empty) is `[]`. -/
theorem takeWhile_head_fail (p : Char → Bool) (s : List Char)
    (hs : s = [] ∨ ∃ c, s.head? = some c ∧ p c = false) :
    s.takeWhile p = [] := by
  cases s with
  | nil => rfl
  | cons a l =>
    rcases hs with hs | ⟨c, hc, hpc⟩
    · cases hs
    · have : a = c := by
        simp only [List.head?_cons, Option.some.injEq] at hc
        exact hc
      subst this
      rw [List.takeWhile_cons, if_neg (by rw [hpc]; simp)]

/-- `dropWhile` of a list whose head fails (or which is empty) is itself. -/
theorem dropWhile_head_fail (p : Char → Bool) (s : List Char)
    (hs : s = [] ∨ ∃ c, s.head? = some c ∧ p c = false) :
    s.dropWhile p = s := by
  cases s with
  | nil => rfl
  | cons a l =>
    rcases hs with hs | ⟨c, hc, hpc⟩
    · cases hs
    · have : a = c := by
        simp only [List.head?_cons, Option.some.injEq] at hc
        exact hc
      subst this
      rw [List.dropWhile_cons, if_neg (by rw [hpc]; simp)]

/-- An element failing the predicate survives `dropWhile`. -/
theorem mem_dropWhile_of_fail (p : Char → Bool) :
    ∀ (l : List Char) (c : Char), c ∈ l → p c = false → c ∈ l.dropWhile p := by
  intro l
  induction l with
  | nil => intro c hc _; cases hc
  | cons a as ih =>
    intro c hc hp
    by_cases ha : p a
    · rw [List.dropWhile_cons, if_pos ha]
      rcases List.mem_cons.mp hc with rfl | hc
      · rw [ha] at hp; cases hp
      · exact ih c hc hp
    · rw [List.dropWhile_cons, if_neg ha]
      exact hc

/-- A non-whitespace element survives stripping. -/
theorem mem_stripChars (l : List Char) (c : Char) (hc : c ∈ l)
    (hp : isPyWs c = false) : c ∈ stripChars l := by
  unfold stripChars
  rw [List.mem_reverse]
  exact mem_dropWhile_of_fail isPyWs _ c
    (List.mem_reverse.mpr (mem_dropWhile_of_fail isPyWs l c hc hp)) hp

/-- A list with a non-whitespace element does not strip to empty. -/
theorem stripChars_ne_nil (l : List Char)
    (h : ∃ c ∈ l, isPyWs c = false) : stripChars l ≠ [] := by
  obtain ⟨c, hc, hp⟩ := h
  intro hq
  have := mem_stripChars l c hc hp
  rw [hq] at this
  cases this

/-- Unfolding of `isAsciiAlphaCh` to code-point bounds. -/
theorem isAsciiAlphaCh_iff (c : Char) : isAsciiAlphaCh c = true ↔
    (97 ≤ c.toNat ∧ c.toNat ≤ 122) ∨ (65 ≤ c.toNat ∧ c.toNat ≤ 90) := by
  simp only [isAsciiAlphaCh, Bool.or_eq_true, isAsciiLower_iff, isAsciiUpper_iff]

/-- Alphabetic characters are not whitespace. -/
theorem isPyWs_eq_false_of_alpha (c : Char) (h : isAsciiAlphaCh c = true) :
    isPyWs c = false := by
  cases hx : isPyWs c
  · rfl
  · exfalso
    have h1 := (isAsciiAlphaCh_iff c).mp h
    have h2 := (isPyWs_iff c).mp hx
    omega

/-- A non-word character is non-alphabetic. -/
theorem alpha_eq_false_of_not_word (c : Char) (h : isWordChar c = false) :
    isAsciiAlphaCh c = false := by
  unfold isWordChar at h
  cases hx : isAsciiAlphaCh c
  · rfl
  · rw [hx] at h
    simp at h

/-! ### `goSub` structure -/

/-- `goSub` on the empty text. -/
theorem goSub_nil (mp : List (String × String)) (f : Nat) (prev : Bool) :
    goSub mp f prev [] = [] := by
  cases f <;> rfl

/-- The fuel of `goSub` is irrelevant once it is at least the text length. -/
theorem goSub_fuel_irrel (mp : List (String × String)) :
    ∀ f1 f2 (prev : Bool) (l : List Char), l.length ≤ f1 → l.length ≤ f2 →
      goSub mp f1 prev l = goSub mp f2 prev l := by
  intro f1
  induction f1 with
  | zero =>
    intro f2 prev l h1 _
    have : l = [] := List.eq_nil_of_length_eq_zero (by omega)
    subst this
    rw [goSub_nil, goSub_nil]
  | succ f1 ih =>
    intro f2 prev l h1 h2
    cases l with
    | nil => rw [goSub_nil, goSub_nil]
    | cons c cs =>
      cases f2 with
      | zero => simp at h2
      | succ f2 =>
        rw [goSub, goSub]
        simp only [List.length_cons] at h1 h2
        by_cases hc : isAsciiAlphaCh c
        · rw [if_pos hc, if_pos hc]
          congr 1
          have hd : (cs.dropWhile isAsciiAlphaCh).length ≤ cs.length := by
            have := List.dropWhile_sublist (l := cs) (p := isAsciiAlphaCh)
            exact this.length_le
          exact ih f2 true _ (by omega) (by omega)
        · rw [if_neg hc, if_neg hc]
          congr 1
          exact ih f2 (isWordChar c) cs (by omega) (by omega)

/-- Splitting `goSub` at a chunk boundary: a processed chunk that does not
end inside an alphabetic run contributes independently, passing on its
word-character state. -/
theorem goSub_append (mp : List (String × String)) :
    ∀ f (prev : Bool) (p t : List Char), p.length + t.length ≤ f →
      (p = [] ∨ ∃ c, p.getLast? = some c ∧ isAsciiAlphaCh c = false) →
      goSub mp f prev (p ++ t) =
        goSub mp f prev p ++ goSub mp f (prevAfter prev p) t := by
  intro f
  induction f with
  | zero =>
    intro prev p t h1 _
    have hp : p = [] := List.eq_nil_of_length_eq_zero (by omega)
    have ht : t = [] := List.eq_nil_of_length_eq_zero (by omega)
    subst hp
    subst ht
    simp [goSub_nil]
  | succ f ih =>
    intro prev p t h1 hb
    cases p with
    | nil =>
      rw [List.nil_append, goSub_nil]
      rw [show prevAfter prev [] = prev from rfl, List.nil_append]
    | cons c cs =>
      rcases hb with hb | ⟨cl, hcl, hcla⟩
      · cases hb
      · simp only [List.length_cons] at h1
        by_cases hc : isAsciiAlphaCh c
        · have hcs : cs ≠ [] := by
            intro hq
            subst hq
            simp only [List.getLast?_singleton, Option.some.injEq] at hcl
            rw [← hcl] at hcla
            rw [hc] at hcla
            cases hcla
          have hlast : cs.getLast? = some cl := by
            rw [← hcl]
            exact (List.getLast?_append_of_ne_nil [c] hcs).symm
          have hclmem : cl ∈ cs := by
            have hx := List.getLast?_eq_getLast cs hcs
            rw [hlast] at hx
            have hx2 : cl = cs.getLast hcs := by
              simp only [Option.some.injEq] at hx
              exact hx
            rw [hx2]
            exact List.getLast_mem hcs
          have hexist : ∃ x ∈ cs, isAsciiAlphaCh x = false := ⟨cl, hclmem, hcla⟩
          have hrest_ne : cs.dropWhile isAsciiAlphaCh ≠ [] := by
            intro hq
            have := (List.dropWhile_eq_nil_iff).mp hq cl hclmem
            rw [hcla] at this
            cases this
          have hdlen : (cs.dropWhile isAsciiAlphaCh).length ≤ cs.length := by
            have := List.dropWhile_sublist (l := cs) (p := isAsciiAlphaCh)
            exact this.length_le
          have hrest_last : (cs.dropWhile isAsciiAlphaCh).getLast? = some cl := by
            obtain ⟨pre, hpre⟩ := List.dropWhile_suffix
              (l := cs) (p := isAsciiAlphaCh)
            rw [← hlast]
            conv_rhs => rw [← hpre]
            exact (List.getLast?_append_of_ne_nil pre hrest_ne).symm
          have hp1 : prevAfter prev (c :: cs) = isWordChar cl := by
            unfold prevAfter
            rw [show (c :: cs).getLast? = cs.getLast? from
              List.getLast?_append_of_ne_nil [c] hcs, hlast]
          have hp2 : prevAfter true (cs.dropWhile isAsciiAlphaCh)
              = isWordChar cl := by
            unfold prevAfter
            rw [hrest_last]
          show goSub mp (f+1) prev (c :: (cs ++ t)) = _
          rw [goSub, if_pos hc]
          rw [takeWhile_append_stop isAsciiAlphaCh cs t hexist]
          rw [dropWhile_append_stop isAsciiAlphaCh cs t hexist]
          have hbdry : rightBoundary (cs.dropWhile isAsciiAlphaCh ++ t)
              = rightBoundary (cs.dropWhile isAsciiAlphaCh) := by
            unfold rightBoundary
            cases hq : cs.dropWhile isAsciiAlphaCh with
            | nil => exact absurd hq hrest_ne
            | cons a l => rfl
          rw [hbdry]
          rw [ih true (cs.dropWhile isAsciiAlphaCh) t (by omega)
            (Or.inr ⟨cl, hrest_last, hcla⟩)]
          conv_rhs => rw [goSub, if_pos hc]
          rw [hp1, hp2]
          rw [goSub_fuel_irrel mp f (f+1) (isWordChar cl) t (by omega) (by omega)]
          rw [List.append_assoc]
        · show goSub mp (f+1) prev (c :: (cs ++ t)) = _
          rw [goSub, if_neg hc]
          conv_rhs => rw [goSub, if_neg hc]
          by_cases hcs : cs = []
          · subst hcs
            rw [List.nil_append, goSub_nil]
            rw [show prevAfter prev [c] = isWordChar c from rfl]
            rw [List.singleton_append]
            rw [goSub_fuel_irrel mp f (f+1) (isWordChar c) t (by omega) (by omega)]
          · have hlastcs : cs.getLast? = some cl := by
              rw [← hcl]
              exact (List.getLast?_append_of_ne_nil [c] hcs).symm
            rw [ih (isWordChar c) cs t (by omega) (Or.inr ⟨cl, hlastcs, hcla⟩)]
            have hp1 : prevAfter prev (c :: cs) = isWordChar cl := by
              unfold prevAfter
              rw [show (c :: cs).getLast? = cs.getLast? from
                List.getLast?_append_of_ne_nil [c] hcs, hlastcs]
            have hp2 : prevAfter (isWordChar c) cs = isWordChar cl := by
              unfold prevAfter
              rw [hlastcs]
            rw [hp1, hp2]
            rw [goSub_fuel_irrel mp f (f+1) (isWordChar cl) t (by omega) (by omega)]
            rw [List.cons_append]

/-- Processing a maximal alphabetic run: the run passes through
`replace_word` exactly when the `\b` tests hold on both sides, and the rest
continues with word-character state `true`. -/
theorem goSub_run (mp : List (String × String)) (f : Nat) (prev : Bool)
    (r s : List Char) (hf : r.length + s.length ≤ f) (hr : r ≠ [])
    (hra : ∀ c ∈ r, isAsciiAlphaCh c = true)
    (hs : s = [] ∨ ∃ c0, s.head? = some c0 ∧ isAsciiAlphaCh c0 = false) :
    goSub mp f prev (r ++ s) =
      (if !prev && rightBoundary s then replaceWord mp r else r)
        ++ goSub mp f true s := by
  cases r with
  | nil => exact absurd rfl hr
  | cons c rt =>
    cases f with
    | zero => simp at hf
    | succ f =>
      simp only [List.length_cons] at hf
      simp only [List.cons_append]
      rw [goSub, if_pos (hra c (by simp))]
      have htake : (rt ++ s).takeWhile isAsciiAlphaCh = rt := by
        rw [takeWhile_append_all _ rt s (fun x hx => hra x (by simp [hx]))]
        rw [takeWhile_head_fail _ s hs, List.append_nil]
      have hdrop : (rt ++ s).dropWhile isAsciiAlphaCh = s := by
        rw [dropWhile_append_all _ rt s (fun x hx => hra x (by simp [hx]))]
        exact dropWhile_head_fail _ s hs
      rw [htake, hdrop]
      rw [goSub_fuel_irrel mp f (f+1) true s (by omega) (by omega)]

/-- A text with no alphabetic character passes through unchanged. -/
theorem goSub_no_alpha (mp : List (String × String)) :
    ∀ f (prev : Bool) (l : List Char),
      (∀ c ∈ l, isAsciiAlphaCh c = false) → goSub mp f prev l = l := by
  intro f
  induction f with
  | zero => intro prev l _; rfl
  | succ f ih =>
    intro prev l h
    cases l with
    | nil => rfl
    | cons c cs =>
      rw [goSub, if_neg (by rw [h c (by simp)]; simp)]
      congr 1
      exact ih (isWordChar c) cs (fun x hx => h x (by simp [hx]))

/-- The non-alphabetic characters of the input survive, in order, in the
output of the substitution pass. -/
theorem goSub_filter_sublist (mp : List (String × String)) :
    ∀ f (prev : Bool) (l : List Char), l.length ≤ f →
      (l.filter (fun c => !isAsciiAlphaCh c)).Sublist (goSub mp f prev l) := by
  intro f
  induction f with
  | zero =>
    intro prev l h
    have : l = [] := List.eq_nil_of_length_eq_zero (by omega)
    subst this
    simp
  | succ f ih =>
    intro prev l h
    cases l with
    | nil => simp [goSub_nil]
    | cons c cs =>
      simp only [List.length_cons] at h
      rw [goSub]
      by_cases hc : isAsciiAlphaCh c
      · rw [if_pos hc]
        have hsplit : c :: cs =
            (c :: cs.takeWhile isAsciiAlphaCh) ++ cs.dropWhile isAsciiAlphaCh := by
          rw [List.cons_append, List.takeWhile_append_dropWhile]
        have hfilter : (c :: cs).filter (fun c2 => !isAsciiAlphaCh c2)
            = (cs.dropWhile isAsciiAlphaCh).filter (fun c2 => !isAsciiAlphaCh c2) := by
          conv_lhs => rw [hsplit]
          rw [List.filter_append]
          have hnil : (c :: cs.takeWhile isAsciiAlphaCh).filter
              (fun c2 => !isAsciiAlphaCh c2) = [] := by
            rw [List.filter_eq_nil_iff]
            intro a ha
            rcases List.mem_cons.mp ha with rfl | ha
            · simp [hc]
            · have := List.mem_takeWhile_imp ha
              simp [this]
          rw [hnil, List.nil_append]
        rw [hfilter]
        have hdlen : (cs.dropWhile isAsciiAlphaCh).length ≤ cs.length := by
          have := List.dropWhile_sublist (l := cs) (p := isAsciiAlphaCh)
          exact this.length_le
        exact (ih true _ (by omega)).trans
          (List.sublist_append_right _ _)
      · rw [if_neg hc]
        rw [List.filter_cons_of_pos (by simp [hc])]
        exact (ih (isWordChar c) cs (by omega)).cons₂ c

/-! ### Claims C6 and C7 -/

/-- Claim C6 counterexample: the tokenizer is `\b[a-zA-Z]+\b`, not "maximal
alphabetic runs": in `"hello1"` the run `hello` touches the digit `1`, the
right `\b` fails, and no substitution happens although `"hello"` is a key —
refuting "for every alphabetic run whose lowercase form is a key, the
substitute is emitted".  Second conjunct: a lowercase run does not receive
the substitute "in lowercase" — the substitute is emitted verbatim, here
uppercase `"WORLD"`. -/
theorem claim6_counterexample :
    encrypt_text_content [("hello", "world")] "hello1" = "hello1" ∧
    encrypt_text_content [("hello", "WORLD")] "hello" = "WORLD" := by
  constructor
  · decide
  · decide

/-- Claim C6 amended: an alphabetic run whose two neighbours are not `\w`
characters (letters, digits, underscore) — or which touches the text edges —
and whose lowercase form is a key of the mapping is replaced by the
substitute through the case dispatch of `replace_word`: all-uppercase run →
substitute uppercased; title-case run → substitute capitalised; any other
run → substitute verbatim (lowercase substitutes therefore stay lowercase,
as in the three examples of the claim, which also hold). -/
theorem claim6_case_transfer (mp : List (String × String)) (p r s : List Char)
    (enc : String)
    (hr : r ≠ []) (hra : ∀ c ∈ r, isAsciiAlphaCh c = true)
    (hpl : p = [] ∨ ∃ c, p.getLast? = some c ∧ isWordChar c = false)
    (hsr : s = [] ∨ ∃ c2, s.head? = some c2 ∧ isWordChar c2 = false)
    (hm : assocFind (pyLower ⟨r⟩) mp = some enc) :
    encrypt_text_content mp ⟨p ++ r ++ s⟩ =
      ⟨goSub mp (p ++ r ++ s).length false p ++ transferCase r enc ++
        goSub mp (p ++ r ++ s).length true s⟩ ∧
    encrypt_text_content [("hello", "world")] "HELLO" = "WORLD" ∧
    encrypt_text_content [("hello", "world")] "Hello" = "World" ∧
    encrypt_text_content [("hello", "world")] "hello" = "world" := by
  refine ⟨?_, by decide, by decide, by decide⟩
  obtain ⟨c0, hc0⟩ := List.exists_mem_of_ne_nil r hr
  have hc0a := hra c0 hc0
  have hc0mem : c0 ∈ p ++ r ++ s := by simp [hc0]
  have hne : p ++ r ++ s ≠ [] := by
    intro hq
    rw [hq] at hc0mem
    cases hc0mem
  have hstrip : stripChars (p ++ r ++ s) ≠ [] :=
    stripChars_ne_nil _ ⟨c0, hc0mem, isPyWs_eq_false_of_alpha c0 hc0a⟩
  have hpl2 : p = [] ∨ ∃ c, p.getLast? = some c ∧ isAsciiAlphaCh c = false := by
    rcases hpl with h | ⟨c, h1, h2⟩
    · exact Or.inl h
    · exact Or.inr ⟨c, h1, alpha_eq_false_of_not_word c h2⟩
  have hsr2 : s = [] ∨ ∃ c2, s.head? = some c2 ∧ isAsciiAlphaCh c2 = false := by
    rcases hsr with h | ⟨c2, h1, h2⟩
    · exact Or.inl h
    · exact Or.inr ⟨c2, h1, alpha_eq_false_of_not_word c2 h2⟩
  have hprev : prevAfter false p = false := by
    rcases hpl with rfl | ⟨cl, hcl, hclw⟩
    · rfl
    · unfold prevAfter
      rw [hcl]
      exact hclw
  have hbdry : rightBoundary s = true := by
    rcases hsr with rfl | ⟨c2, hc2, hc2w⟩
    · rfl
    · unfold rightBoundary
      rw [hc2]
      show (!isWordChar c2) = true
      rw [hc2w]
      rfl
  unfold encrypt_text_content
  rw [if_neg (by
    rintro (h | h)
    · exact hne h
    · exact hstrip h)]
  refine congrArg String.mk ?_
  have hlen : (String.mk (p ++ r ++ s)).data.length = (p ++ r ++ s).length := rfl
  rw [hlen]
  generalize hN : (p ++ r ++ s).length = N
  have hNlen : p.length + r.length + s.length = N := by
    have hx : (p ++ r ++ s).length = p.length + r.length + s.length := by
      simp only [List.length_append]
    omega
  rw [show (String.mk (p ++ r ++ s)).data = p ++ r ++ s from rfl]
  rw [show p ++ r ++ s = p ++ (r ++ s) from List.append_assoc p r s]
  rw [goSub_append mp N false p (r ++ s)
    (by simp only [List.length_append]; omega) hpl2]
  rw [goSub_run mp N (prevAfter false p) r s (by omega) hr hra hsr2]
  rw [hprev, hbdry]
  rw [show (!false && true) = true from rfl, if_pos rfl]
  rw [show replaceWord mp r = transferCase r enc from by
    unfold replaceWord
    rw [hm]]
  rw [List.append_assoc]

/-- Witness for the amended C6: the bare run `"HELLO"` with mapping
`{"hello": "world"}` emits the uppercased substitute. -/
theorem claim6_case_transfer_witness :
    assocFind (pyLower ⟨"HELLO".data⟩) [("hello", "world")] = some "world" ∧
    encrypt_text_content [("hello", "world")] ⟨[] ++ "HELLO".data ++ []⟩ =
      ⟨goSub [("hello", "world")]
          (([] ++ "HELLO".data ++ [] : List Char)).length false []
        ++ transferCase "HELLO".data "world"
        ++ goSub [("hello", "world")]
          (([] ++ "HELLO".data ++ [] : List Char)).length true []⟩ :=
  ⟨by decide,
    (claim6_case_transfer [("hello", "world")] [] "HELLO".data [] "world"
      (by decide) (by decide) (Or.inl rfl) (Or.inl rfl) (by decide)).1⟩

/-- Claim C7: the transformer passes every non-alphabetic character of the
input through in order (they form a sublist of the output); an alphabetic
run absent from the mapping is emitted unchanged within any text; a text
with no alphabetic character (in particular no alphabetic run) is returned
identically; and `apply("hello, world!", {"hello": "foo"})` is
`"foo, world!"`. -/
theorem claim7_frame (mp : List (String × String)) (text : String)
    (p r s : List Char) :
    ((∀ c ∈ text.data, isAsciiAlphaCh c = false) →
      encrypt_text_content mp text = text) ∧
    (text.data = p ++ r ++ s → r ≠ [] → (∀ c ∈ r, isAsciiAlphaCh c = true) →
      (p = [] ∨ ∃ c, p.getLast? = some c ∧ isAsciiAlphaCh c = false) →
      (s = [] ∨ ∃ c2, s.head? = some c2 ∧ isAsciiAlphaCh c2 = false) →
      assocFind (pyLower ⟨r⟩) mp = none →
      encrypt_text_content mp text =
        ⟨goSub mp text.data.length false p ++ r ++
          goSub mp text.data.length true s⟩) ∧
    (text.data.filter (fun c => !isAsciiAlphaCh c)).Sublist
      (encrypt_text_content mp text).data ∧
    encrypt_text_content [("hello", "foo")] "hello, world!" = "foo, world!" := by
  refine ⟨?_, ?_, ?_, by decide⟩
  · intro h
    unfold encrypt_text_content
    by_cases hg : text.data = [] ∨ stripChars text.data = []
    · rw [if_pos hg]
    · rw [if_neg hg]
      rw [goSub_no_alpha mp _ false text.data h]
  · intro hdec hr hra hpl hsr hm
    obtain ⟨c0, hc0⟩ := List.exists_mem_of_ne_nil r hr
    have hc0a := hra c0 hc0
    have hc0mem : c0 ∈ text.data := by
      rw [hdec]
      simp [hc0]
    have hne : text.data ≠ [] := by
      intro hq
      rw [hq] at hc0mem
      cases hc0mem
    have hstrip : stripChars text.data ≠ [] :=
      stripChars_ne_nil _ ⟨c0, hc0mem, isPyWs_eq_false_of_alpha c0 hc0a⟩
    unfold encrypt_text_content
    rw [if_neg (by
      rintro (h | h)
      · exact hne h
      · exact hstrip h)]
    refine congrArg String.mk ?_
    generalize hN : text.data.length = N
    have hNlen : p.length + r.length + s.length = N := by
      have hx : (p ++ r ++ s).length = p.length + r.length + s.length := by
        simp only [List.length_append]
      rw [hdec] at hN
      omega
    rw [hdec]
    rw [show p ++ r ++ s = p ++ (r ++ s) from List.append_assoc p r s]
    rw [goSub_append mp N false p (r ++ s)
      (by simp only [List.length_append]; omega) hpl]
    rw [goSub_run mp N (prevAfter false p) r s (by omega) hr hra hsr]
    have hrw : replaceWord mp r = r := by
      unfold replaceWord
      rw [hm]
    have hemit : (if !(prevAfter false p) && rightBoundary s
        then replaceWord mp r else r) = r := by
      by_cases hq : (!(prevAfter false p) && rightBoundary s) = true
      · rw [if_pos hq, hrw]
      · rw [if_neg hq]
    rw [hemit, List.append_assoc]
  · unfold encrypt_text_content
    by_cases hg : text.data = [] ∨ stripChars text.data = []
    · rw [if_pos hg]
      exact List.filter_sublist text.data
    · rw [if_neg hg]
      exact goSub_filter_sublist mp text.data.length false text.data (le_refl _)

/-- Witness for C7: the run `"a"` (not a key of the empty mapping) passes
through unchanged inside `"a,b"`. -/
theorem claim7_frame_witness :
    ("a,b" : String).data = [] ++ "a".data ++ ",b".data ∧
    encrypt_text_content [] "a,b" =
      ⟨goSub [] ("a,b" : String).data.length false [] ++ "a".data ++
        goSub [] ("a,b" : String).data.length true ",b".data⟩ :=
  ⟨by decide,
    (claim7_frame [] "a,b" [] "a".data ",b".data).2.1 (by decide) (by decide)
      (by decide) (Or.inl rfl) (Or.inr ⟨',', rfl, by decide⟩) (by decide)⟩

end Browser
